import Mathlib

set_option maxRecDepth 4000

namespace CppBigInt

/-- Word base of the representation: each digit of `BigInt::digits` is an
unsigned 32-bit word, so the magnitude is a little-endian base-`2^32` numeral. -/
def B : Nat := 2 ^ 32

/-- Shallow embedding of `struct BigInt` from `src/Main.cpp`: the
`std::vector<uint32_t> digits` field (least-significant word first, each word
below `2^32`) and the `bool negative` sign flag. -/
structure BigInt where
  digits : List Nat
  negative : Bool
deriving DecidableEq

/-- Value of a little-endian digit list. -/
def mag : List Nat → Nat
  | [] => 0
  | d :: ds => d + B * mag ds

/-- Value of a most-significant-word-first digit list. -/
def magRev : List Nat → Nat
  | [] => 0
  | d :: ds => d * B ^ ds.length + magRev ds

/-- Signed value denoted by a `BigInt`. -/
def val (x : BigInt) : Int :=
  if x.negative then -(mag x.digits : Int) else (mag x.digits : Int)

/-- Every entry of the list is a genuine 32-bit word. -/
def WfL (l : List Nat) : Prop := ∀ d ∈ l, d < B

/-- Well-formedness of a `BigInt`: all stored words fit in 32 bits. -/
def Wf (x : BigInt) : Prop := WfL x.digits

instance (l : List Nat) : Decidable (WfL l) := by unfold WfL; infer_instance

instance (x : BigInt) : Decidable (Wf x) := by unfold Wf; infer_instance

/-- A digit list with no trailing (most-significant) zero word, except that the
single-word list `[0]` is allowed; this is the state `BigInt::trim` leaves
behind. -/
def TrimmedL (l : List Nat) : Prop := l = [] ∨ l = [0] ∨ l.getLast? ≠ some 0

instance (l : List Nat) : Decidable (TrimmedL l) := by unfold TrimmedL; infer_instance

/-- The `while (digits.size() > 1 && digits.back() == 0) pop_back()` loop of
`BigInt::trim`, phrased on the reversed (most-significant-first) list. -/
def popLeadZeros : List Nat → List Nat
  | [] => []
  | [d] => [d]
  | d :: e :: rest => if d = 0 then popLeadZeros (e :: rest) else d :: e :: rest

/-- Digit-list part of `BigInt::trim`. -/
def trimList (l : List Nat) : List Nat := (popLeadZeros l.reverse).reverse

/-- `BigInt::trim`: drop trailing zero words (keeping at least one word), and
clear the sign when the remaining magnitude is the single word `[0]`. -/
def trim (x : BigInt) : BigInt :=
  let d := trimList x.digits
  ⟨d, if d = [0] then false else x.negative⟩

/-- `BigInt::isZero`: empty digit vector, or exactly one zero word. -/
def isZero (x : BigInt) : Bool :=
  match x.digits with
  | [] => true
  | [d] => d == 0
  | _ => false

/-- `BigInt::abs`: same digits, sign cleared. -/
def abs (x : BigInt) : BigInt := ⟨x.digits, false⟩

/-- Unary `BigInt::operator-`: flip the sign unless the value is zero. -/
def neg (x : BigInt) : BigInt := if isZero x then x else ⟨x.digits, !x.negative⟩

/-- First differing pair of words when scanning two equal-length lists from the
front; `BigInt::operator<` scans from the most significant word down, so it is
applied to reversed digit lists. -/
def firstDiff : List Nat → List Nat → Option (Nat × Nat)
  | x :: xs, y :: ys => if x = y then firstDiff xs ys else some (x, y)
  | _, _ => none

/-- `BigInt::operator<`: sign first, then word count, then
most-significant-word-first comparison, with directions inverted for negative
operands. -/
def ltB (a b : BigInt) : Bool :=
  if a.negative != b.negative then a.negative
  else if a.digits.length ≠ b.digits.length then
    (if a.negative then b.digits.length < a.digits.length
     else a.digits.length < b.digits.length)
  else
    match firstDiff a.digits.reverse b.digits.reverse with
    | none => false
    | some (dx, dy) => if a.negative then dy < dx else dx < dy

/-- `BigInt::operator>=`, defined in the source as `!(*this < other)`. -/
def geB (a b : BigInt) : Bool := !(ltB a b)

/-- `BigInt::operator==`: equal sign flags and identical digit vectors. -/
def beq (a b : BigInt) : Bool := a.negative == b.negative && a.digits == b.digits

/-- Tail of the addition loop of `BigInt::operator+` once both operands are
exhausted but a carry remains; the running carry is at most `1`, so at most one
extra word is appended, matching the `i < n || carry` loop condition. -/
def addTail : List Nat → Nat → List Nat
  | [], c => if c = 0 then [] else [c]
  | a :: as, c => (a + c) % B :: addTail as ((a + c) / B)

/-- Word-wise addition loop of `BigInt::operator+` (same-sign branch): 64-bit
sum of the two words and the carry, low 32 bits pushed, carry is the high part. -/
def addWords : List Nat → List Nat → Nat → List Nat
  | [], bs, c => addTail bs c
  | a :: as, [], c => (a + c) % B :: addWords as [] ((a + c) / B)
  | a :: as, b :: bs, c => (a + b + c) % B :: addWords as bs ((a + b + c) / B)

/-- Word-wise subtraction loop of `BigInt::operator-` (same-sign, larger-minus-
smaller branch).  The source computes `int64_t diff = digits[i] - borrow -
other.digits[i]` and tests `diff < 0`; here the sign test is rendered as the
equivalent `a < b + borrow` comparison on `Nat`.  The loop runs over the first
operand's words only, exactly as in the source. -/
def subWords : List Nat → List Nat → Nat → List Nat
  | [], _, _ => []
  | a :: as, b :: bs, brw =>
    if a < b + brw then (a + B - b - brw) :: subWords as bs 1
    else (a - b - brw) :: subWords as bs 0
  | a :: as, [], brw =>
    if a < brw then (a + B - brw) :: subWords as [] 1
    else (a - brw) :: subWords as [] 0

/-- Mutual recursion of `BigInt::operator+` and `BigInt::operator-`, indexed by
a fuel bound and a tag (`true` = addition, `false` = subtraction).  Each
delegation between the two operators consumes one unit of fuel; `none` means
the mutual recursion did not reach a base case within the given fuel.  The C++
operators have no termination guard, and indeed recurse forever on some inputs
(see the claim about additive identity). -/
def addSubF : Nat → Bool → BigInt → BigInt → Option BigInt
  | 0, _, _, _ => none
  | fuel + 1, true, x, y =>
    if x.negative == y.negative then
      some ⟨addWords x.digits y.digits 0, x.negative⟩
    else
      addSubF fuel false x (neg y)
  | fuel + 1, false, x, y =>
    if x.negative != y.negative then
      addSubF fuel true x (neg y)
    else if geB (abs x) (abs y) then
      some (trim ⟨subWords x.digits y.digits 0, x.negative⟩)
    else
      (addSubF fuel false y x).map neg

/-- `BigInt::operator+` with a fuel bound on the `+`/`-` mutual recursion. -/
def addF (fuel : Nat) (x y : BigInt) : Option BigInt := addSubF fuel true x y

/-- `BigInt::operator-` with a fuel bound on the `+`/`-` mutual recursion. -/
def subF (fuel : Nat) (x y : BigInt) : Option BigInt := addSubF fuel false x y

/-- Carry propagation tail of the inner multiplication loop (`j <
other.digits.size() || carry`): once the second operand's words are exhausted
the loop keeps folding the carry into the accumulator words. -/
def addCarry : List Nat → Nat → List Nat
  | [], c => if c = 0 then [] else [c]
  | r :: rs, c => if c = 0 then r :: rs else (r + c) % B :: addCarry rs ((r + c) / B)

/-- Inner loop of `BigInt::operator*` for one word `ai` of the first operand:
`sum = result[i+j] + ai * other[j] + carry`, low word stored, carry kept.
`acc` is the suffix of the result buffer starting at position `i`. -/
def mulRow : List Nat → Nat → List Nat → Nat → List Nat
  | acc, ai, b :: bs, c =>
    let s := acc.headD 0 + ai * b + c
    s % B :: mulRow acc.tail ai bs (s / B)
  | acc, _, [], c => addCarry acc c

/-- Outer loop of `BigInt::operator*`: row `i` only touches result positions
`≥ i`, so after processing a row the lowest accumulator word is final. -/
def mulLoop : List Nat → List Nat → List Nat → List Nat
  | acc, [], _ => acc
  | acc, ai :: as, bs =>
    match mulRow acc ai bs 0 with
    | [] => []
    | r0 :: rest => r0 :: mulLoop rest as bs

/-- `BigInt::operator*`: result buffer of `len(a) + len(b)` zero words,
schoolbook accumulation, sign = XOR of the operand signs, then `trim`. -/
def mulBig (a b : BigInt) : BigInt :=
  trim ⟨mulLoop (List.replicate (a.digits.length + b.digits.length) 0) a.digits b.digits,
        a.negative != b.negative⟩

/-- Bit-shift part of `BigInt::operator<<`: each word is shifted left by
`bs < 32` bits and combined with the incoming carry (the source writes `|`,
which coincides with `+` because the carry occupies only the low `bs` bits);
a final non-zero carry is appended as an extra word. -/
def shlWords : List Nat → Nat → Nat → List Nat
  | [], _, c => if c = 0 then [] else [c]
  | d :: ds, bs, c => (d * 2 ^ bs + c) % B :: shlWords ds bs ((d * 2 ^ bs + c) / B)

/-- `BigInt::operator<<` for a non-negative shift: word-shift by `n / 32`
(zero words inserted at the least significant end), bit-shift by `n % 32` with
upward carry, then `trim`. -/
def shl (x : BigInt) (n : Nat) : BigInt :=
  if isZero x || n == 0 then x
  else
    trim ⟨List.replicate (n / 32) 0 ++ shlWords x.digits (n % 32) 0, x.negative⟩

/-- Bit-shift part of `BigInt::operator>>`, processing the words from the most
significant down with a downward carry of the bits shifted out; applied to the
reversed digit list. -/
def shrWordsRev : List Nat → Nat → Nat → List Nat
  | [], _, _ => []
  | d :: ds, bs, c =>
    let cur := c * B + d
    (cur / 2 ^ bs) % B :: shrWordsRev ds bs (cur % 2 ^ bs)

/-- `BigInt::operator>>` for a non-negative shift: if the word shift covers the
whole vector the result is `BigInt(0)` (empty digits, sign cleared); otherwise
drop the low words, bit-shift downwards, `trim`. -/
def shr (x : BigInt) (n : Nat) : BigInt :=
  if isZero x || n == 0 then x
  else if x.digits.length ≤ n / 32 then ⟨[], false⟩
  else
    trim ⟨(shrWordsRev (x.digits.drop (n / 32)).reverse (n % 32) 0).reverse, x.negative⟩

/-- Number of binary digits of a word, with enough fuel for 32-bit words. -/
def bitLenAux : Nat → Nat → Nat
  | 0, _ => 0
  | f + 1, x => if x = 0 then 0 else bitLenAux f (x / 2) + 1

/-- Bit length of a 32-bit word. -/
def bitLen32 (x : Nat) : Nat := bitLenAux 32 x

/-- `__builtin_clz` on a non-zero 32-bit word: the count of leading zero bits. -/
def clz32 (x : Nat) : Nat := 32 - bitLen32 x

/-- The pre-shift amount computed at the start of the long division:
`int norm = 32 - __builtin_clz(divisor.digits.back())`. -/
def normOf (x : BigInt) : Nat := 32 - clz32 (x.digits.getLast?.getD 0)

/-- `BigInt::BigInt(int)` (and the in-range part of `BigInt(int64_t)`): sign
captured from the comparison with zero, magnitude pushed only when non-zero. -/
def ofInt (v : Int) : BigInt :=
  ⟨if v.natAbs = 0 then [] else [v.natAbs], decide (v < 0)⟩

/-- `BigInt::BigInt(uint32_t)`: non-negative, one word unless zero. -/
def ofU32 (w : Nat) : BigInt := ⟨if w = 0 then [] else [w], false⟩

/-- Word loop of `BigInt::operator&`: over the overlapping word range only. -/
def andWords : List Nat → List Nat → List Nat
  | x :: xs, y :: ys => (x &&& y) :: andWords xs ys
  | _, _ => []

/-- `BigInt::operator&`: word-wise AND over `min` length; the result object is
default-constructed, so its sign flag stays `false`; then `trim`. -/
def andB (a b : BigInt) : BigInt := trim ⟨andWords a.digits b.digits, false⟩

/-- Tail of the `BigInt::operator|` loop once the first operand's words are
exhausted: the first operand's word is read as `0`. -/
def orTail : List Nat → List Nat
  | [] => []
  | y :: ys => (0 ||| y) :: orTail ys

/-- Word loop of `BigInt::operator|`: over the union range, a missing word of
either operand read as `0`. -/
def orWords : List Nat → List Nat → List Nat
  | [], ys => orTail ys
  | x :: xs, y :: ys => (x ||| y) :: orWords xs ys
  | x :: xs, [] => (x ||| 0) :: orWords xs []

/-- `BigInt::operator|`: word-wise OR over `max` length, sign never set, `trim`. -/
def orB (a b : BigInt) : BigInt := trim ⟨orWords a.digits b.digits, false⟩

/-- Restatement of the spec's words for the AND magnitude ("operates over the
overlapping word range, length = shorter operand's length"), for comparison
with the source-derived `andB`. -/
def andSpecWords (xs ys : List Nat) : List Nat := List.zipWith (· &&& ·) xs ys

/-- Restatement of the spec's words for the OR magnitude ("the union range,
length = longer operand's length, missing words treated as zero"), for
comparison with the source-derived `orB`. -/
def orSpecWords (xs ys : List Nat) : List Nat :=
  (List.range (max xs.length ys.length)).map fun i => xs.getD i 0 ||| ys.getD i 0

/-- The `while (str.size() > 1 && str[0] == '0') str.erase(0, 1)` loop of the
string constructor. -/
def stripZeros : List Char → List Char
  | [] => []
  | [c] => [c]
  | c :: d :: rest => if c = '0' then stripZeros (d :: rest) else c :: d :: rest

/-- Digit-folding loop of the string constructor: `result = result * 10 +
BigInt(c - '0')` for every remaining character, with no validation of `c`.
The character arithmetic `c - '0'` is rendered on `Int` exactly as C++ computes
it, so a non-digit character silently contributes a garbage value.  `none`
propagates fuel exhaustion of the `+` operator's mutual recursion. -/
def foldDigits : List Char → BigInt → Option BigInt
  | [], r => some r
  | c :: cs, r =>
    match addF 4 (mulBig r (ofInt 10)) (ofInt ((c.toNat : Int) - 48)) with
    | none => none
    | some r' => foldDigits cs r'

/-- `BigInt::BigInt(const std::string&)`: optional leading `'-'` sets the flag
(and is never cleared, even when the digits denote zero); leading zeros
stripped; digits folded left to right.  The empty string falls through with no
error and yields zero. -/
def parseChars (s : List Char) : Option BigInt :=
  let p : Bool × List Char :=
    match s with
    | '-' :: rest => (true, rest)
    | _ => (false, s)
  let s2 := stripZeros p.2
  (foldDigits s2 (ofInt 0)).map fun r => ⟨r.digits, p.1⟩

/-- String-level wrapper of the parsing constructor. -/
def parseB (s : String) : Option BigInt := parseChars s.data

/-- Word loop of `BigInt::divmod_small`, on the reversed digit list:
`current = (remainder << 32) + digits[i]`, quotient word and running remainder. -/
def divSmallRev (d : Nat) : List Nat → Nat → List Nat × Nat
  | [], r => ([], r)
  | w :: ws, r =>
    let cur := r * B + w
    let p := divSmallRev d ws (cur % d)
    (cur / d :: p.1, p.2)

/-- `BigInt::divmod_small`: divide in place by a single word, return the new
value (trimmed) together with the remainder word. -/
def divmodSmall (x : BigInt) (d : Nat) : BigInt × Nat :=
  let p := divSmallRev d x.digits.reverse 0
  (trim ⟨p.1.reverse, x.negative⟩, p.2)

/-- Decimal digit extraction loop of `operator<<(std::ostream&, BigInt)`:
repeatedly `divmod_small(10)` until the value is zero.  The fuel bounds the
digit count; ten decimal digits per 32-bit word always suffice. -/
def toDecimalAux : Nat → BigInt → List Char
  | 0, _ => []
  | f + 1, t =>
    if isZero t then []
    else
      let p := divmodSmall t 10
      Char.ofNat (48 + p.2) :: toDecimalAux f p.1

/-- `operator<<(std::ostream&, BigInt)`: `"0"` for zero, otherwise optional
minus sign followed by the collected digits reversed into order. -/
def toDecimal (x : BigInt) : String :=
  if isZero x then "0"
  else
    (if x.negative then "-" else "") ++
      String.mk (toDecimalAux (10 * x.digits.length + 1) (abs x)).reverse

/-- Errors of `BigInt::divmod`: the `std::runtime_error("Division by zero")`
throw, and `stuck` for exhaustion of the fuel of the inner `operator-` call
(the claims show this never happens). -/
inductive DivErr
  | divisionByZero
  | stuck
deriving DecidableEq

/-- Correction loop of `BigInt::divmod`: `while (remainder < mult) { --qguess;
mult = divisor * qguess; mult <<= 32*i; }`, returning the final `qguess`
together with the final `mult`.  The initial `mult` of the source is the
`qg+1` step here.  At `qguess = 0` the loop condition is always false (the
remainder is never negative), so the zero case returns directly. -/
def correctLoop (divisor remainder : BigInt) (i : Nat) : Nat → Nat × BigInt
  | 0 => (0, shl (mulBig divisor (ofU32 0)) (32 * i))
  | qg + 1 =>
    let mult := shl (mulBig divisor (ofU32 (qg + 1))) (32 * i)
    if ltB remainder mult then correctLoop divisor remainder i qg
    else (qg + 1, mult)

/-- Main long-division loop of `BigInt::divmod`, for `i` from `n - m` down to
`0` (the fuel is `i + 1`); returns the quotient words most-significant first
and the final running remainder.  `r_hi` reproduces the guarded read of
`digits[i+m]`; the source reads `digits[i+m-1]` without any guard, which is
out of bounds for some inputs (see the in-bounds checker below) — the model
reads `0` there, as `getD` does for the guarded neighbour. -/
def qLoop (divisor : BigInt) : Nat → BigInt → Option (List Nat × BigInt)
  | 0, remainder => some ([], remainder)
  | i + 1, remainder =>
    let m := divisor.digits.length
    let rhi : Nat := if i + m < remainder.digits.length then remainder.digits.getD (i + m) 0 else 0
    let rlo : Nat := remainder.digits.getD (i + m - 1) 0
    let numerator := rhi * B + rlo
    let denominator := divisor.digits.getLast?.getD 0
    let qguess := min (numerator / denominator) (B - 1)
    let p := correctLoop divisor remainder i qguess
    match subF 1 remainder p.2 with
    | none => none
    | some rem' => (qLoop divisor i rem').map fun q => (p.1 :: q.1, q.2)

/-- `BigInt::divmod`: zero-divisor throw, zero-dividend and `|a| < |b|`
short-circuits, normalization by `normOf`, the main loop, denormalization of
the remainder, sign assignment and final trims, exactly in source order. -/
def divmod (a b : BigInt) : Except DivErr (BigInt × BigInt) :=
  if isZero b then .error .divisionByZero
  else if isZero a then .ok (ofInt 0, ofInt 0)
  else
    let remainder0 := abs a
    let divisor0 := abs b
    if ltB remainder0 divisor0 then .ok (ofInt 0, a)
    else
      let norm := normOf divisor0
      let divisor := if norm != 0 then shl divisor0 norm else divisor0
      let remainder := if norm != 0 then shl remainder0 norm else remainder0
      let n := remainder.digits.length
      let m := divisor.digits.length
      match qLoop divisor (n - m + 1) remainder with
      | none => .error .stuck
      | some (qs, rem1) =>
        let q1 := trim ⟨qs.reverse, false⟩
        let rem2 := if norm != 0 then shr rem1 norm else rem1
        let q2 := trim ⟨q1.digits, a.negative != b.negative⟩
        let r2 := trim ⟨rem2.digits, a.negative⟩
        .ok (q2, r2)

/-- `BigInt::operator/`: the quotient component of `divmod`. -/
def divB (a b : BigInt) : Except DivErr BigInt := (divmod a b).map Prod.fst

/-- `BigInt::operator%`: the remainder component of `divmod`. -/
def modB (a b : BigInt) : Except DivErr BigInt := (divmod a b).map Prod.snd

/-- Sibling of `qLoop` that checks, before each iteration, that the unguarded
source read `remainder.digits[i + m - 1]` is in bounds for the current word
vector of the running remainder; `false` means the source performs an
out-of-bounds `std::vector` access at that step. -/
def qLoopBounds (divisor : BigInt) : Nat → BigInt → Bool
  | 0, _ => true
  | i + 1, remainder =>
    let m := divisor.digits.length
    if i + m - 1 < remainder.digits.length then
      let rhi : Nat := if i + m < remainder.digits.length then remainder.digits.getD (i + m) 0 else 0
      let rlo : Nat := remainder.digits.getD (i + m - 1) 0
      let numerator := rhi * B + rlo
      let denominator := divisor.digits.getLast?.getD 0
      let qguess := min (numerator / denominator) (B - 1)
      let p := correctLoop divisor remainder i qguess
      qLoopBounds divisor i ((subF 1 remainder p.2).getD remainder)
    else false

/-- Whole-division in-bounds checker: `true` when every read of
`remainder.digits[i + m - 1]` performed by `divmod`'s long-division loop is in
bounds for the inputs `a`, `b`. -/
def divmodInBounds (a b : BigInt) : Bool :=
  if isZero b then true
  else if isZero a then true
  else
    let remainder0 := abs a
    let divisor0 := abs b
    if ltB remainder0 divisor0 then true
    else
      let norm := normOf divisor0
      let divisor := if norm != 0 then shl divisor0 norm else divisor0
      let remainder := if norm != 0 then shl remainder0 norm else remainder0
      qLoopBounds divisor (remainder.digits.length - divisor.digits.length + 1) remainder

lemma B_pos : 0 < B := by norm_num [B]

lemma one_lt_B : 1 < B := by norm_num [B]

lemma mag_nil : mag [] = 0 := rfl

lemma mag_cons (d : Nat) (ds : List Nat) : mag (d :: ds) = d + B * mag ds := rfl

lemma mag_append (l1 l2 : List Nat) :
    mag (l1 ++ l2) = mag l1 + B ^ l1.length * mag l2 := by
  induction l1 with
  | nil => simp [mag]
  | cons d ds ih => simp [mag, ih, pow_succ]; ring

lemma mag_replicate_zero (k : Nat) : mag (List.replicate k 0) = 0 := by
  induction k with
  | zero => rfl
  | succ n ih => simp [List.replicate_succ, mag, ih]

lemma wfL_nil : WfL [] := by intro d hd; cases hd

lemma wfL_cons {d : Nat} {ds : List Nat} (hd : d < B) (hds : WfL ds) :
    WfL (d :: ds) := by
  intro x hx
  rcases List.mem_cons.mp hx with h | h
  · exact h ▸ hd
  · exact hds x h

lemma wfL_of_cons {d : Nat} {ds : List Nat} (h : WfL (d :: ds)) :
    d < B ∧ WfL ds :=
  ⟨h d (List.mem_cons_self d ds), fun x hx => h x (List.mem_cons_of_mem d hx)⟩

lemma mag_lt_pow {l : List Nat} (h : WfL l) : mag l < B ^ l.length := by
  induction l with
  | nil => simp [mag]
  | cons d ds ih =>
    obtain ⟨hd, hds⟩ := wfL_of_cons h
    have h1 : mag ds + 1 ≤ B ^ ds.length := ih hds
    have : d + B * mag ds < B * (mag ds + 1) := by nlinarith [B_pos]
    calc mag (d :: ds) = d + B * mag ds := rfl
      _ < B * (mag ds + 1) := this
      _ ≤ B * B ^ ds.length := by nlinarith [B_pos]
      _ = B ^ (d :: ds).length := by rw [List.length_cons, pow_succ]; ring

lemma mag_ge_of_getLast : ∀ {l : List Nat} {d : Nat},
    l.getLast? = some d → d ≠ 0 → B ^ (l.length - 1) ≤ mag l := by
  intro l
  induction l with
  | nil => intro d h; simp at h
  | cons a as ih =>
    intro d h hd
    cases as with
    | nil =>
      simp [List.getLast?] at h
      subst h
      simpa [mag] using Nat.one_le_iff_ne_zero.mpr hd
    | cons b bs =>
      rw [List.getLast?_cons_cons] at h
      have h1 := ih h hd
      have h2 : B ^ (b :: bs).length ≤ B * mag (b :: bs) := by
        have : B ^ (b :: bs).length = B * B ^ ((b :: bs).length - 1) := by
          rw [List.length_cons]; simp [pow_succ]; ring
        rw [this]
        exact Nat.mul_le_mul_left B h1
      calc B ^ ((a :: b :: bs).length - 1) = B ^ (b :: bs).length := by simp
        _ ≤ B * mag (b :: bs) := h2
        _ ≤ a + B * mag (b :: bs) := Nat.le_add_left _ _
        _ = mag (a :: b :: bs) := rfl

lemma magRev_reverse (l : List Nat) : mag l.reverse = magRev l := by
  induction l with
  | nil => rfl
  | cons d ds ih =>
    simp [List.reverse_cons, mag_append, magRev, mag, ih]
    ring

lemma mag_eq_magRev_reverse (l : List Nat) : mag l = magRev l.reverse := by
  simpa using magRev_reverse l.reverse

lemma popLeadZeros_magRev : ∀ l, magRev (popLeadZeros l) = magRev l := by
  intro l
  induction l with
  | nil => rfl
  | cons d ds ih =>
    cases ds with
    | nil => rfl
    | cons e rest =>
      by_cases hd : d = 0
      · subst hd; simpa [popLeadZeros, magRev] using ih
      · simp [popLeadZeros, hd]

lemma mag_trimList (l : List Nat) : mag (trimList l) = mag l := by
  unfold trimList
  rw [magRev_reverse, popLeadZeros_magRev, ← magRev_reverse, List.reverse_reverse]

lemma popLeadZeros_mem : ∀ l d, d ∈ popLeadZeros l → d ∈ l := by
  intro l
  induction l with
  | nil => intro d h; exact h
  | cons a as ih =>
    intro d h
    cases as with
    | nil => exact h
    | cons e rest =>
      by_cases ha : a = 0
      · subst ha
        simp only [popLeadZeros, if_pos rfl] at h
        exact List.mem_cons_of_mem _ (ih d h)
      · simpa [popLeadZeros, ha] using h

lemma wfL_trimList {l : List Nat} (h : WfL l) : WfL (trimList l) := by
  intro d hd
  unfold trimList at hd
  rw [List.mem_reverse] at hd
  have := popLeadZeros_mem l.reverse d hd
  rw [List.mem_reverse] at this
  exact h d this

lemma popLeadZeros_shape : ∀ l : List Nat, popLeadZeros l = [] ∨
    (∃ d, popLeadZeros l = [d]) ∨
    (∃ d rest, popLeadZeros l = d :: rest ∧ d ≠ 0) := by
  intro l
  induction l with
  | nil => left; rfl
  | cons a as ih =>
    cases as with
    | nil => right; left; exact ⟨a, rfl⟩
    | cons e rest =>
      by_cases ha : a = 0
      · subst ha; simpa [popLeadZeros] using ih
      · right; right; exact ⟨a, e :: rest, by simp [popLeadZeros, ha], ha⟩

lemma getLast?_reverse' (l : List Nat) : l.reverse.getLast? = l.head? := by
  cases l with
  | nil => rfl
  | cons a as => simp [List.getLast?_append, List.reverse_cons]

lemma trimmedL_trimList (l : List Nat) : TrimmedL (trimList l) := by
  unfold trimList TrimmedL
  rcases popLeadZeros_shape l.reverse with h | ⟨d, h⟩ | ⟨d, rest, h, hd⟩
  · left; simp [h]
  · rw [h]
    by_cases hd : d = 0
    · right; left; simp [hd]
    · right; right; simp [hd]
  · right; right
    rw [h, getLast?_reverse']
    simpa using hd

lemma popLeadZeros_ne_nil : ∀ {l : List Nat}, l ≠ [] → popLeadZeros l ≠ [] := by
  intro l
  induction l with
  | nil => intro h; exact absurd rfl h
  | cons a as ih =>
    intro _
    cases as with
    | nil => simp [popLeadZeros]
    | cons e rest =>
      by_cases ha : a = 0
      · subst ha
        simpa [popLeadZeros] using ih (by simp)
      · simp [popLeadZeros, ha]

lemma trimList_ne_nil {l : List Nat} (h : l ≠ []) : trimList l ≠ [] := by
  unfold trimList
  intro hc
  have := popLeadZeros_ne_nil (l := l.reverse) (by simpa using h)
  simp at hc
  exact this hc

lemma getLast?_eq_reverse_head? (l : List Nat) : l.getLast? = l.reverse.head? := by
  conv_lhs => rw [← List.reverse_reverse l]
  rw [getLast?_reverse']

lemma trimList_eq_self {l : List Nat} (h : TrimmedL l) : trimList l = l := by
  rcases h with h | h | h
  · subst h; rfl
  · subst h; rfl
  · unfold trimList
    rcases hl : l.reverse with _ | ⟨d, rest⟩
    · have hnil : l = [] := by simpa using congrArg List.reverse hl
      subst hnil; rfl
    · have hd : d ≠ 0 := by
        intro hd0
        apply h
        rw [getLast?_eq_reverse_head?, hl, hd0]
        rfl
      have hrec : l = (d :: rest).reverse := by
        simpa using congrArg List.reverse hl
      cases rest with
      | nil => rw [hrec]; rfl
      | cons e r2 =>
        simp only [popLeadZeros, if_neg hd]
        rw [hrec]

lemma trim_digits (x : BigInt) : (trim x).digits = trimList x.digits := rfl

lemma mag_trim (x : BigInt) : mag (trim x).digits = mag x.digits := by
  rw [trim_digits, mag_trimList]

lemma val_trim (x : BigInt) : val (trim x) = val x := by
  unfold val trim
  by_cases h : trimList x.digits = [0]
  · have h0 : mag x.digits = 0 := by
      rw [← mag_trimList x.digits, h]; rfl
    simp [h, h0, mag]
  · simp only [h, if_false]
    rw [mag_trimList]

lemma trim_negative_false {x : BigInt} (h : x.negative = false) :
    (trim x).negative = false := by
  unfold trim
  by_cases hd : trimList x.digits = [0] <;> simp [hd, h]

lemma isZero_false_iff (x : BigInt) :
    isZero x = false ↔ x.digits ≠ [] ∧ x.digits ≠ [0] := by
  unfold isZero
  rcases hx : x.digits with _ | ⟨d, _ | ⟨e, rest⟩⟩ <;> simp

lemma isZero_true_mag {x : BigInt} (h : isZero x = true) : mag x.digits = 0 := by
  unfold isZero at h
  rcases hx : x.digits with _ | ⟨d, _ | ⟨e, rest⟩⟩ <;> rw [hx] at h <;> simp at h
  · simp [mag]
  · simp [mag, h]

lemma getLast_ne_zero {x : BigInt} (ht : TrimmedL x.digits) (hz : isZero x = false) :
    ∃ d, x.digits.getLast? = some d ∧ d ≠ 0 := by
  obtain ⟨hne, hns⟩ := (isZero_false_iff x).mp hz
  rcases ht with h | h | h
  · exact absurd h hne
  · exact absurd h hns
  · rcases hd : x.digits.getLast? with _ | d
    · exact absurd (List.getLast?_eq_none_iff.mp hd) hne
    · exact ⟨d, rfl, fun h0 => h (h0 ▸ hd)⟩

lemma mag_pos_of_nonzero {x : BigInt} (ht : TrimmedL x.digits) (hz : isZero x = false) :
    0 < mag x.digits := by
  obtain ⟨d, hd, hd0⟩ := getLast_ne_zero ht hz
  have := mag_ge_of_getLast hd hd0
  have hp : 0 < B ^ (x.digits.length - 1) := Nat.pos_pow_of_pos _ B_pos
  omega

lemma bitLenAux_zero : ∀ f, bitLenAux f 0 = 0 := by
  intro f
  cases f with
  | zero => rfl
  | succ g => simp [bitLenAux]

lemma bitLenAux_spec : ∀ (f x : Nat), x < 2 ^ f → 0 < x →
    2 ^ (bitLenAux f x - 1) ≤ x ∧ x < 2 ^ bitLenAux f x ∧
    0 < bitLenAux f x ∧ bitLenAux f x ≤ f := by
  intro f
  induction f with
  | zero => intro x hx hp; omega
  | succ f ih =>
    intro x hx hp
    have hx0 : x ≠ 0 := Nat.pos_iff_ne_zero.mp hp
    simp only [bitLenAux, if_neg hx0]
    by_cases h2 : x / 2 = 0
    · have hx1 : x = 1 := by omega
      subst hx1
      rw [show (1 : Nat) / 2 = 0 from rfl, bitLenAux_zero]
      norm_num
    · have hhalf : x / 2 < 2 ^ f := by
        have : x < 2 ^ f * 2 := by
          rw [← pow_succ]; exact hx
        omega
      obtain ⟨h1, h2', h3, h4⟩ := ih (x / 2) hhalf (Nat.pos_iff_ne_zero.mpr h2)
      refine ⟨?_, ?_, by omega, by omega⟩
      · rw [Nat.add_sub_cancel]
        have hkey : 2 ^ bitLenAux f (x / 2) = 2 ^ (bitLenAux f (x / 2) - 1) * 2 := by
          conv_lhs => rw [← Nat.sub_add_cancel h3]
          rw [pow_succ]
        rw [hkey]
        omega
      · rw [pow_succ]
        omega

lemma mem_of_getLast?_eq {l : List Nat} {d : Nat} (h : l.getLast? = some d) : d ∈ l := by
  have hm : d ∈ l.getLast? := by rw [h]; rfl
  obtain ⟨hne, heq⟩ := List.mem_getLast?_eq_getLast hm
  rw [heq]
  exact List.getLast_mem hne

/-- C2 counterexample: for divisor `1` the source computes a pre-shift amount
of `1`, while the number of leading zero bits of the top word is `31`; and
after the shift the divisor's top word is `2`, whose highest (2^31) bit is not
set.  This refutes the claim that `norm` is the leading-zero count and that
the shifted divisor's top word has its highest bit set. -/
theorem c2_counterexample :
    normOf (abs ⟨[1], false⟩) = 1 ∧ clz32 1 = 31 ∧
    normOf (abs ⟨[1], false⟩) ≠ clz32 1 ∧
    (shl (abs ⟨[1], false⟩) (normOf (abs ⟨[1], false⟩))).digits.getLast?.getD 0 = 2 ∧
    ¬ 2 ^ 31 ≤ (shl (abs ⟨[1], false⟩) (normOf (abs ⟨[1], false⟩))).digits.getLast?.getD 0 := by
  refine ⟨rfl, rfl, by decide, rfl, by decide⟩

/-- C2 (amended): the pre-shift amount `norm` computed by `divmod` equals `32`
minus the number of leading zero bits of the divisor's most-significant word,
i.e. the bit length of that word, which lies between 1 and 32; the two
inequalities pin the leading-zero count down as the genuine one. -/
theorem c2_norm_bit_length (b : BigInt) (hw : Wf b) (ht : TrimmedL b.digits)
    (hz : isZero b = false) :
    normOf b + clz32 (b.digits.getLast?.getD 0) = 32 ∧
    1 ≤ normOf b ∧ normOf b ≤ 32 ∧
    2 ^ (normOf b - 1) ≤ b.digits.getLast?.getD 0 ∧
    b.digits.getLast?.getD 0 < 2 ^ normOf b := by
  obtain ⟨d, hd, hd0⟩ := getLast_ne_zero ht hz
  have hdB : d < B := hw d (mem_of_getLast?_eq hd)
  obtain ⟨h1, h2, h3, h4⟩ := bitLenAux_spec 32 d (by simpa [B] using hdB)
    (Nat.pos_iff_ne_zero.mpr hd0)
  unfold normOf clz32 bitLen32
  rw [hd]
  simp only [Option.getD_some]
  have hk : 32 - (32 - bitLenAux 32 d) = bitLenAux 32 d := by omega
  rw [hk]
  omega

/-- C2 witness: the amended statement holds at the concrete divisor `5`. -/
theorem c2_norm_bit_length_witness :
    Wf ⟨[5], false⟩ ∧ TrimmedL [5] ∧ isZero ⟨[5], false⟩ = false ∧
    (normOf ⟨[5], false⟩ + clz32 (([5] : List Nat).getLast?.getD 0) = 32 ∧
     1 ≤ normOf ⟨[5], false⟩ ∧ normOf ⟨[5], false⟩ ≤ 32 ∧
     2 ^ (normOf ⟨[5], false⟩ - 1) ≤ ([5] : List Nat).getLast?.getD 0 ∧
     ([5] : List Nat).getLast?.getD 0 < 2 ^ normOf ⟨[5], false⟩) :=
  ⟨by decide, by decide, rfl,
   c2_norm_bit_length ⟨[5], false⟩ (by decide) (by decide) rfl⟩

lemma c3_aux : ∀ (fuel : Nat) (tag : Bool),
    addSubF fuel tag ⟨[5], true⟩ ⟨[0], false⟩ = none := by
  intro fuel
  induction fuel with
  | zero => intro tag; cases tag <;> rfl
  | succ f ih =>
    intro tag
    cases tag
    · show addSubF (f + 1) false _ _ = none
      have hneg : neg ⟨[0], false⟩ = ⟨[0], false⟩ := rfl
      simp only [addSubF, hneg]
      exact ih true
    · show addSubF (f + 1) true _ _ = none
      have hneg : neg ⟨[0], false⟩ = ⟨[0], false⟩ := rfl
      simp only [addSubF, hneg]
      exact ih false

/-- C3: the claim fails because `x + 0` never terminates for a negative `x`.
`operator+` on operands of different sign delegates to `operator-`, which
delegates straight back because negating zero leaves it unchanged, so the
mutual recursion never reaches a base case: no fuel bound suffices for
`(-5) + 0` (here `0` is the canonical parsed zero, digits `[0]`, sign clear). -/
theorem c3_add_zero_diverges :
    ∀ fuel : Nat, addF fuel ⟨[5], true⟩ ⟨[0], false⟩ = none := by
  intro fuel
  exact c3_aux fuel true

/-- C4: for dividend `2^64` and divisor `2^32` (with `|a| ≥ |b|`) the running
remainder is trimmed to a single word before the last quotient position, so
`divmod`'s unguarded read of `remainder.digits[i + m - 1]` is out of bounds. -/
theorem c4_out_of_bounds_read :
    divmodInBounds ⟨[0, 0, 1], false⟩ ⟨[0, 1], false⟩ = false ∧
    ltB (abs ⟨[0, 0, 1], false⟩) (abs ⟨[0, 1], false⟩) = false := by
  exact ⟨rfl, rfl⟩

/-- C6: the parsing constructor performs no validation, so it never fails.
The empty string silently parses to zero and the non-digit string `"?"`
silently parses to the value `15` (from the character arithmetic `'?' - '0'`),
instead of surfacing an `InvalidFormat` failure. -/
theorem c6_parse_never_fails :
    parseB "" = some ⟨[], false⟩ ∧ parseB "?" = some ⟨[15], false⟩ := by
  exact ⟨rfl, rfl⟩

/-- C7: parsing `"-0"` keeps the sign flag set (the string constructor never
calls `trim`), producing a negative zero that violates invariant I2 and
compares unequal to the result of parsing `"0"` under `operator==`. -/
theorem c7_negative_zero :
    parseB "-0" = some ⟨[0], true⟩ ∧ parseB "0" = some ⟨[0], false⟩ ∧
    beq ⟨[0], true⟩ ⟨[0], false⟩ = false ∧ mag [0] = 0 := by
  exact ⟨rfl, rfl, rfl, rfl⟩

/-- C8: the round trip fails for the zero produced by the public division
interface.  `1 / 2` returns the quotient `BigInt(0)` with an empty digit
vector; it prints as `"0"`, but parsing `"0"` yields the one-word magnitude
`[0]`, which `operator==` considers different, so `parse(toString(x)) == x`
is false at that `x`. -/
theorem c8_roundtrip_fails :
    divmod ⟨[1], false⟩ ⟨[2], false⟩ = .ok (⟨[], false⟩, ⟨[1], false⟩) ∧
    toDecimal ⟨[], false⟩ = "0" ∧
    parseB (toDecimal ⟨[], false⟩) = some ⟨[0], false⟩ ∧
    beq ⟨[0], false⟩ ⟨[], false⟩ = false := by
  exact ⟨rfl, rfl, rfl, rfl⟩

/-- C1 counterexample: for dividend `1` and divisor `-2` the quotient is zero
and is returned with its sign flag cleared, while the XOR of the operand signs
is `true`; so the returned quotient's sign is not the XOR of the operands'
signs as claimed. -/
theorem c1_counterexample :
    divmod ⟨[1], false⟩ ⟨[2], true⟩ = .ok (⟨[], false⟩, ⟨[1], false⟩) ∧
    ((⟨[1], false⟩ : BigInt).negative != (⟨[2], true⟩ : BigInt).negative) = true ∧
    ((⟨[], false⟩ : BigInt)).negative = false := by
  exact ⟨rfl, rfl, rfl⟩

lemma andWords_eq_zipWith : ∀ xs ys : List Nat,
    andWords xs ys = List.zipWith (· &&& ·) xs ys := by
  intro xs
  induction xs with
  | nil => intro ys; cases ys <;> rfl
  | cons x xs ih =>
    intro ys
    cases ys with
    | nil => rfl
    | cons y ys => simp [andWords, ih]

lemma orSpecWords_cons_cons (x y : Nat) (xs ys : List Nat) :
    orSpecWords (x :: xs) (y :: ys) = (x ||| y) :: orSpecWords xs ys := by
  unfold orSpecWords
  have hmax : max (x :: xs).length (y :: ys).length = max xs.length ys.length + 1 := by
    simp only [List.length_cons]; omega
  rw [hmax, List.range_succ_eq_map, List.map_cons, List.map_map]
  refine congrArg₂ List.cons (by simp) ?_
  apply List.map_congr_left
  intro i _
  simp [List.getD_cons_succ]

lemma orSpecWords_cons_nil (x : Nat) (xs : List Nat) :
    orSpecWords (x :: xs) [] = (x ||| 0) :: orSpecWords xs [] := by
  unfold orSpecWords
  have hmax : max (x :: xs).length ([] : List Nat).length = max xs.length ([] : List Nat).length + 1 := by
    simp only [List.length_cons, List.length_nil]; omega
  rw [hmax, List.range_succ_eq_map, List.map_cons, List.map_map]
  refine congrArg₂ List.cons (by simp) ?_
  apply List.map_congr_left
  intro i _
  simp [List.getD_cons_succ]

lemma orSpecWords_nil_cons (y : Nat) (ys : List Nat) :
    orSpecWords [] (y :: ys) = (0 ||| y) :: orSpecWords [] ys := by
  unfold orSpecWords
  have hmax : max ([] : List Nat).length (y :: ys).length = max ([] : List Nat).length ys.length + 1 := by
    simp only [List.length_cons, List.length_nil]; omega
  rw [hmax, List.range_succ_eq_map, List.map_cons, List.map_map]
  refine congrArg₂ List.cons (by simp) ?_
  apply List.map_congr_left
  intro i _
  simp [List.getD_cons_succ]

lemma orTail_eq_spec : ∀ ys : List Nat, orTail ys = orSpecWords [] ys := by
  intro ys
  induction ys with
  | nil => simp [orTail, orSpecWords]
  | cons y ys ihy => rw [orTail, ihy, orSpecWords_nil_cons]

lemma orWords_eq_spec : ∀ xs ys : List Nat, orWords xs ys = orSpecWords xs ys := by
  intro xs
  induction xs with
  | nil => intro ys; exact orTail_eq_spec ys
  | cons x xs ih =>
    intro ys
    cases ys with
    | nil => rw [orWords, ih, orSpecWords_cons_nil]
    | cons y ys => rw [orWords, ih, orSpecWords_cons_cons]

lemma val_nonneg_of_flag {x : BigInt} (h : x.negative = false) : 0 ≤ val x := by
  unfold val
  rw [h]
  simp

/-- C10: bitwise AND has magnitude the word-wise AND of the overlapping word
range, bitwise OR the word-wise OR of the union range with missing words read
as zero, both normalized by `trim`; neither assigns a sign, so both results
carry a cleared sign flag and denote non-negative values whatever the signs of
the operands.  `andSpecWords`/`orSpecWords` restate the spec's wording. -/
theorem c10_bitwise_and_or (a b : BigInt) :
    (andB a b).digits = trimList (andSpecWords a.digits b.digits) ∧
    (andB a b).negative = false ∧
    TrimmedL (andB a b).digits ∧
    0 ≤ val (andB a b) ∧
    (orB a b).digits = trimList (orSpecWords a.digits b.digits) ∧
    (orB a b).negative = false ∧
    TrimmedL (orB a b).digits ∧
    0 ≤ val (orB a b) := by
  have handn : (andB a b).negative = false :=
    trim_negative_false (x := ⟨andWords a.digits b.digits, false⟩) rfl
  have horn : (orB a b).negative = false :=
    trim_negative_false (x := ⟨orWords a.digits b.digits, false⟩) rfl
  refine ⟨?_, handn, ?_, val_nonneg_of_flag handn, ?_, horn, ?_, val_nonneg_of_flag horn⟩
  · rw [andB, trim_digits, andWords_eq_zipWith]; rfl
  · rw [andB, trim_digits]; exact trimmedL_trimList _
  · rw [orB, trim_digits, orWords_eq_spec]
  · rw [orB, trim_digits]; exact trimmedL_trimList _

lemma wfL_reverse {l : List Nat} (h : WfL l) : WfL l.reverse :=
  fun d hd => h d (List.mem_reverse.mp hd)

lemma magRev_lt_pow {l : List Nat} (h : WfL l) : magRev l < B ^ l.length := by
  have h1 := mag_lt_pow (wfL_reverse h)
  rw [List.length_reverse, magRev_reverse] at h1
  exact h1

lemma magRev_head_lt {x y : Nat} {xs ys : List Nat} (hlen : xs.length = ys.length)
    (hwx : WfL xs) (hxy : x < y) : magRev (x :: xs) < magRev (y :: ys) := by
  have h1 : magRev xs < B ^ xs.length := magRev_lt_pow hwx
  simp only [magRev]
  rw [hlen] at h1 ⊢
  calc x * B ^ ys.length + magRev xs
      < x * B ^ ys.length + B ^ ys.length := by omega
    _ = (x + 1) * B ^ ys.length := by ring
    _ ≤ y * B ^ ys.length := Nat.mul_le_mul_right _ hxy
    _ ≤ y * B ^ ys.length + magRev ys := Nat.le_add_right _ _

lemma firstDiff_none : ∀ {xs ys : List Nat}, xs.length = ys.length →
    firstDiff xs ys = none → xs = ys := by
  intro xs
  induction xs with
  | nil =>
    intro ys h _
    cases ys with
    | nil => rfl
    | cons y ys => simp at h
  | cons x xs ih =>
    intro ys h hf
    cases ys with
    | nil => simp at h
    | cons y ys =>
      by_cases hxy : x = y
      · subst hxy
        rw [firstDiff, if_pos rfl] at hf
        rw [ih (by simpa using h) hf]
      · rw [firstDiff, if_neg hxy] at hf
        cases hf

lemma firstDiff_some_iff : ∀ {xs ys : List Nat} {dx dy : Nat},
    xs.length = ys.length → WfL xs → WfL ys →
    firstDiff xs ys = some (dx, dy) →
    (dx < dy ↔ magRev xs < magRev ys) := by
  intro xs
  induction xs with
  | nil =>
    intro ys dx dy h _ _ hf
    cases ys <;> simp [firstDiff] at hf
  | cons x xs ih =>
    intro ys dx dy h hwx hwy hf
    cases ys with
    | nil => simp at h
    | cons y ys =>
      obtain ⟨hx, hwx'⟩ := wfL_of_cons hwx
      obtain ⟨hy, hwy'⟩ := wfL_of_cons hwy
      have hlen : xs.length = ys.length := by simpa using h
      by_cases hxy : x = y
      · subst hxy
        rw [firstDiff, if_pos rfl] at hf
        have hrec := ih hlen hwx' hwy' hf
        simp only [magRev]
        rw [hlen, Nat.add_lt_add_iff_left]
        exact hrec
      · rw [firstDiff, if_neg hxy] at hf
        have hpair : (x, y) = (dx, dy) := Option.some_inj.mp hf
        have hx1 : x = dx := congrArg Prod.fst hpair
        have hy1 : y = dy := congrArg Prod.snd hpair
        subst hx1
        subst hy1
        constructor
        · intro hlt
          exact magRev_head_lt hlen hwx' hlt
        · intro hmag
          by_contra hnlt
          have hgt : y < x := by
            rcases Nat.lt_or_ge y x with h | h
            · exact h
            · exact absurd (by omega : x = y) hxy
          have := magRev_head_lt hlen.symm hwy' hgt
          omega

lemma mag_lt_of_length_lt {xs ys : List Nat} (hwx : WfL xs) (hty : TrimmedL ys)
    (hnx : xs ≠ []) (hlen : xs.length < ys.length) : mag xs < mag ys := by
  rcases hty with h | h | h
  · subst h; simp at hlen
  · subst h
    simp only [List.length_singleton] at hlen
    exact absurd (List.length_eq_zero.mp (by omega)) hnx
  · have hys : ys ≠ [] := by
      intro hc
      rw [hc] at hlen
      simp at hlen
    have hd := List.getLast?_eq_getLast_of_ne_nil hys
    have hd0 : ys.getLast hys ≠ 0 := fun h0 => h (h0 ▸ hd)
    have h1 := mag_ge_of_getLast hd hd0
    have h2 := mag_lt_pow hwx
    have h3 : B ^ xs.length ≤ B ^ (ys.length - 1) :=
      Nat.pow_le_pow_right (le_of_lt one_lt_B) (by omega)
    omega

lemma ltB_eq_mag {x y : BigInt} (hfx : x.negative = false) (hfy : y.negative = false)
    (hwx : Wf x) (hwy : Wf y) (htx : TrimmedL x.digits) (hty : TrimmedL y.digits)
    (hnx : x.digits ≠ []) (hny : y.digits ≠ []) :
    (ltB x y = true ↔ mag x.digits < mag y.digits) := by
  unfold ltB
  rw [hfx, hfy]
  simp only [bne_self_eq_false, Bool.false_eq_true, if_false]
  by_cases hlen : x.digits.length = y.digits.length
  · rw [if_neg (by omega)]
    rcases hfd : firstDiff x.digits.reverse y.digits.reverse with _ | ⟨dx, dy⟩
    · have hrev : x.digits.reverse = y.digits.reverse :=
        firstDiff_none (by simp [hlen]) hfd
      have hxy : x.digits = y.digits := by
        simpa using congrArg List.reverse hrev
      simp [hxy]
    · have hiff := firstDiff_some_iff (by simp [hlen])
        (wfL_reverse hwx) (wfL_reverse hwy) hfd
      rw [← mag_eq_magRev_reverse, ← mag_eq_magRev_reverse] at hiff
      simpa using hiff
  · rw [if_pos hlen]
    simp only [hfx, Bool.false_eq_true, if_false, decide_eq_true_eq]
    constructor
    · intro h
      exact mag_lt_of_length_lt hwx hty hnx h
    · intro hmag
      by_contra hnlt
      have hgt : y.digits.length < x.digits.length := by omega
      have := mag_lt_of_length_lt hwy htx hny hgt
      omega

lemma addTail_mag : ∀ (bs : List Nat) (c : Nat), mag (addTail bs c) = mag bs + c := by
  intro bs
  induction bs with
  | nil =>
    intro c
    by_cases h : c = 0 <;> simp [addTail, h, mag]
  | cons b bs ih =>
    intro c
    simp only [addTail, mag_cons, ih]
    have h := Nat.mod_add_div (b + c) B
    have hexp : B * (mag bs + (b + c) / B) = B * mag bs + B * ((b + c) / B) := by ring
    omega

lemma addWords_mag : ∀ (as bs : List Nat) (c : Nat),
    mag (addWords as bs c) = mag as + mag bs + c := by
  intro as
  induction as with
  | nil =>
    intro bs c
    simp [addWords, addTail_mag, mag]
  | cons a as ih =>
    intro bs c
    cases bs with
    | nil =>
      simp only [addWords, mag_cons, ih, mag_nil]
      have h := Nat.mod_add_div (a + c) B
      have hexp : B * (mag as + 0 + (a + c) / B) = B * mag as + B * ((a + c) / B) := by ring
      omega
    | cons b bs =>
      simp only [addWords, mag_cons, ih]
      have h := Nat.mod_add_div (a + b + c) B
      have hexp : B * (mag as + mag bs + (a + b + c) / B)
          = B * mag as + B * mag bs + B * ((a + b + c) / B) := by ring
      omega

lemma subWords_spec : ∀ (as bs : List Nat) (brw : Nat), WfL as → WfL bs → brw ≤ 1 →
    bs.length ≤ as.length → mag bs + brw ≤ mag as →
    mag (subWords as bs brw) + mag bs + brw = mag as ∧
    WfL (subWords as bs brw) ∧ (subWords as bs brw).length = as.length := by
  intro as
  induction as with
  | nil =>
    intro bs brw _ _ _ hlen hle
    have hbs : bs = [] := List.length_eq_zero.mp (by simpa using hlen)
    subst hbs
    simp only [mag_nil] at hle
    refine ⟨?_, wfL_nil, rfl⟩
    simp only [subWords, mag_nil]
    omega
  | cons a as ih =>
    intro bs brw hwf hwfb hbrw hlen hle
    obtain ⟨ha, hwf'⟩ := wfL_of_cons hwf
    cases bs with
    | nil =>
      by_cases hc : a < brw
      · have hbrw1 : brw = 1 := by omega
        have ha0 : a = 0 := by omega
        have hrec : mag ([] : List Nat) + 1 ≤ mag as := by
          simp only [mag_nil, mag_cons] at hle ⊢
          by_contra hcon
          have hz : mag as = 0 := by omega
          rw [hz, Nat.mul_zero] at hle
          omega
        obtain ⟨h1, h2, h3⟩ := ih [] 1 hwf' wfL_nil le_rfl (by simp) hrec
        simp only [mag_nil] at h1 hrec
        simp only [subWords, if_pos hc, mag_cons, mag_nil, List.length_cons, h3]
        refine ⟨?_, wfL_cons (by omega) h2, trivial⟩
        have hexp : B * mag as = B * mag (subWords as [] 1) + B := by
          have h9 : mag as = mag (subWords as [] 1) + 1 := by omega
          rw [h9]
          ring
        omega
      · obtain ⟨h1, h2, h3⟩ := ih [] 0 hwf' wfL_nil (by omega) (by simp) (by simp [mag])
        simp only [mag_nil] at h1
        simp only [subWords, if_neg hc, mag_cons, mag_nil, List.length_cons, h3]
        refine ⟨?_, wfL_cons (by omega) h2, trivial⟩
        have hexp : B * mag as = B * mag (subWords as [] 0) := by
          have h9 : mag as = mag (subWords as [] 0) + 0 := by omega
          rw [h9]
          ring
        omega
    | cons b bs =>
      obtain ⟨hb, hwfb'⟩ := wfL_of_cons hwfb
      have hlen' : bs.length ≤ as.length := by simpa using hlen
      by_cases hc : a < b + brw
      · have hmm : B * mag bs < B * mag as := by
          simp only [mag_cons] at hle
          omega
        have hlt : mag bs < mag as := lt_of_mul_lt_mul_left hmm (Nat.zero_le B)
        obtain ⟨h1, h2, h3⟩ := ih bs 1 hwf' hwfb' le_rfl hlen' (by omega)
        simp only [subWords, if_pos hc, mag_cons, List.length_cons, h3]
        refine ⟨?_, wfL_cons (by omega) h2, trivial⟩
        have hexp : B * mag as = B * mag (subWords as bs 1) + B * mag bs + B := by
          have h9 : mag as = mag (subWords as bs 1) + mag bs + 1 := by omega
          rw [h9]
          ring
        simp only [mag_cons] at hle
        omega
      · have hO : mag bs ≤ mag as := by
          by_contra hcon
          have h10 : mag as + 1 ≤ mag bs := by omega
          have h11 : B * (mag as + 1) ≤ B * mag bs := Nat.mul_le_mul_left _ h10
          have hBexp : B * (mag as + 1) = B * mag as + B := by ring
          simp only [mag_cons] at hle
          omega
        obtain ⟨h1, h2, h3⟩ := ih bs 0 hwf' hwfb' (by omega) hlen' (by omega)
        simp only [subWords, if_neg hc, mag_cons, List.length_cons, h3]
        refine ⟨?_, wfL_cons (by omega) h2, trivial⟩
        have hexp : B * mag as = B * mag (subWords as bs 0) + B * mag bs := by
          have h9 : mag as = mag (subWords as bs 0) + mag bs + 0 := by omega
          rw [h9]
          ring
        simp only [mag_cons] at hle
        omega

lemma addCarry_zero : ∀ acc : List Nat, addCarry acc 0 = acc := by
  intro acc
  cases acc <;> simp [addCarry]

lemma addCarry_mag : ∀ (acc : List Nat) (c : Nat), mag (addCarry acc c) = mag acc + c := by
  intro acc
  induction acc with
  | nil =>
    intro c
    by_cases h : c = 0 <;> simp [addCarry, h, mag]
  | cons r rs ih =>
    intro c
    by_cases h : c = 0
    · simp [addCarry, h]
    · simp only [addCarry, if_neg h, mag_cons, ih]
      have hmd := Nat.mod_add_div (r + c) B
      have hexp : B * (mag rs + (r + c) / B) = B * mag rs + B * ((r + c) / B) := by ring
      omega

lemma headD_add_tail_mag (acc : List Nat) : mag acc = acc.headD 0 + B * mag acc.tail := by
  cases acc <;> simp [mag]

lemma mulRow_mag : ∀ (bs acc : List Nat) (ai c : Nat),
    mag (mulRow acc ai bs c) = mag acc + ai * mag bs + c := by
  intro bs
  induction bs with
  | nil =>
    intro acc ai c
    simp [mulRow, addCarry_mag, mag]
  | cons b bs ih =>
    intro acc ai c
    simp only [mulRow, mag_cons, ih, mag_cons]
    have hacc := headD_add_tail_mag acc
    have hmd := Nat.mod_add_div (acc.headD 0 + ai * b + c) B
    have hexp : B * (mag acc.tail + ai * mag bs + (acc.headD 0 + ai * b + c) / B)
        = B * mag acc.tail + B * (ai * mag bs)
          + B * ((acc.headD 0 + ai * b + c) / B) := by ring
    have hexp2 : ai * (b + B * mag bs) = ai * b + B * (ai * mag bs) := by ring
    omega

lemma mulLoop_mag : ∀ (as acc bs : List Nat),
    mag (mulLoop acc as bs) = mag acc + mag as * mag bs := by
  intro as
  induction as with
  | nil => intro acc bs; simp [mulLoop, mag]
  | cons a as ih =>
    intro acc bs
    rcases h : mulRow acc a bs 0 with _ | ⟨r0, rest⟩
    · have hbs : bs = [] := by
        cases bs with
        | nil => rfl
        | cons b bs' => simp [mulRow] at h
      subst hbs
      rw [show mulRow acc a [] 0 = addCarry acc 0 from rfl, addCarry_zero] at h
      subst h
      simp [mulLoop, mag]
    · have hm := mulRow_mag bs acc a 0
      rw [h, mag_cons] at hm
      simp only [mulLoop, h, mag_cons, ih]
      have hexp : B * (mag rest + mag as * mag bs)
          = B * mag rest + B * (mag as * mag bs) := by ring
      have hexp2 : (a + B * mag as) * mag bs = a * mag bs + B * (mag as * mag bs) := by
        ring
      omega

lemma addCarry_wf : ∀ (acc : List Nat) (c : Nat), WfL acc → c < B → WfL (addCarry acc c) := by
  intro acc
  induction acc with
  | nil =>
    intro c _ hc
    by_cases h : c = 0
    · simp [addCarry, h, wfL_nil]
    · simp only [addCarry, if_neg h]
      exact wfL_cons hc wfL_nil
  | cons r rs ih =>
    intro c hw hc
    obtain ⟨hr, hrs⟩ := wfL_of_cons hw
    by_cases h : c = 0
    · simpa [addCarry, h] using hw
    · simp only [addCarry, if_neg h]
      refine wfL_cons (Nat.mod_lt _ B_pos) (ih _ hrs ?_)
      have : r + c < 2 * B := by omega
      have h2 : (r + c) / B < 2 := by
        apply Nat.div_lt_of_lt_mul
        omega
      omega

lemma mulRow_wf : ∀ (bs acc : List Nat) (ai c : Nat),
    WfL acc → ai < B → WfL bs → c < B → WfL (mulRow acc ai bs c) := by
  intro bs
  induction bs with
  | nil =>
    intro acc ai c hacc _ _ hc
    exact addCarry_wf acc c hacc hc
  | cons b bs ih =>
    intro acc ai c hacc hai hbs hc
    obtain ⟨hb, hbs'⟩ := wfL_of_cons hbs
    have hhead : acc.headD 0 < B := by
      cases acc with
      | nil => exact B_pos
      | cons r rs => exact (wfL_of_cons hacc).1
    have htail : WfL acc.tail := by
      cases acc with
      | nil => exact wfL_nil
      | cons r rs => exact (wfL_of_cons hacc).2
    simp only [mulRow]
    refine wfL_cons (Nat.mod_lt _ B_pos) (ih _ ai _ htail hai hbs' ?_)
    have hs : acc.headD 0 + ai * b + c < B * B := by nlinarith
    exact Nat.div_lt_of_lt_mul hs

lemma mulLoop_wf : ∀ (as acc bs : List Nat),
    WfL acc → WfL as → WfL bs → WfL (mulLoop acc as bs) := by
  intro as
  induction as with
  | nil => intro acc bs hacc _ _; simpa [mulLoop] using hacc
  | cons a as ih =>
    intro acc bs hacc has hbs
    obtain ⟨ha, has'⟩ := wfL_of_cons has
    have hrow := mulRow_wf bs acc a 0 hacc ha hbs B_pos
    rcases h : mulRow acc a bs 0 with _ | ⟨r0, rest⟩
    · simp [mulLoop, h, wfL_nil]
    · rw [h] at hrow
      obtain ⟨hr0, hrest⟩ := wfL_of_cons hrow
      simp only [mulLoop, h]
      exact wfL_cons hr0 (ih rest bs hrest has' hbs)

lemma mulLoop_ne_nil : ∀ (as acc bs : List Nat), acc ≠ [] → mulLoop acc as bs ≠ [] := by
  intro as
  induction as with
  | nil => intro acc bs hacc; simpa [mulLoop] using hacc
  | cons a as _ =>
    intro acc bs hacc
    rcases h : mulRow acc a bs 0 with _ | ⟨r0, rest⟩
    · exfalso
      cases bs with
      | nil =>
        rw [show mulRow acc a [] 0 = addCarry acc 0 from rfl, addCarry_zero] at h
        exact hacc h
      | cons b bs' => simp [mulRow] at h
    · simp [mulLoop, h]

lemma wfL_replicate_zero (k : Nat) : WfL (List.replicate k 0) := by
  intro d hd
  rw [List.eq_of_mem_replicate hd]
  exact B_pos

lemma mulBig_spec (a b : BigInt) (hwa : Wf a) (hwb : Wf b) :
    mag (mulBig a b).digits = mag a.digits * mag b.digits ∧
    Wf (mulBig a b) ∧ TrimmedL (mulBig a b).digits := by
  unfold mulBig
  rw [trim_digits]
  refine ⟨?_, wfL_trimList (mulLoop_wf _ _ _ (wfL_replicate_zero _) hwa hwb),
    trimmedL_trimList _⟩
  rw [mag_trimList, mulLoop_mag, mag_replicate_zero]
  omega

lemma mulBig_negative_false (a b : BigInt)
    (h : (a.negative != b.negative) = false) : (mulBig a b).negative = false := by
  unfold mulBig
  exact trim_negative_false (x := ⟨_, a.negative != b.negative⟩) h

lemma mulBig_ne_nil (a b : BigInt) (ha : a.digits ≠ []) : (mulBig a b).digits ≠ [] := by
  unfold mulBig
  rw [trim_digits]
  apply trimList_ne_nil
  apply mulLoop_ne_nil
  have : 1 ≤ a.digits.length := by
    cases hx : a.digits with
    | nil => exact absurd hx ha
    | cons u v => simp
  simp only [ne_eq, List.replicate_eq_nil_iff]
  omega

lemma wfL_append {l1 l2 : List Nat} (h1 : WfL l1) (h2 : WfL l2) : WfL (l1 ++ l2) := by
  intro d hd
  rcases List.mem_append.mp hd with h | h
  · exact h1 d h
  · exact h2 d h

lemma shlWords_mag : ∀ (ds : List Nat) (bs c : Nat),
    mag (shlWords ds bs c) = mag ds * 2 ^ bs + c := by
  intro ds
  induction ds with
  | nil =>
    intro bs c
    by_cases h : c = 0 <;> simp [shlWords, h, mag]
  | cons d ds ih =>
    intro bs c
    simp only [shlWords, mag_cons, ih]
    have hmd := Nat.mod_add_div (d * 2 ^ bs + c) B
    have hexp : B * (mag ds * 2 ^ bs + (d * 2 ^ bs + c) / B)
        = B * (mag ds * 2 ^ bs) + B * ((d * 2 ^ bs + c) / B) := by ring
    have hexp2 : (d + B * mag ds) * 2 ^ bs = d * 2 ^ bs + B * (mag ds * 2 ^ bs) := by ring
    omega

lemma shlWords_wf : ∀ (ds : List Nat) (bs c : Nat), WfL ds → bs ≤ 31 → c < 2 ^ bs →
    WfL (shlWords ds bs c) := by
  intro ds
  induction ds with
  | nil =>
    intro bs c _ hbs hc
    by_cases h : c = 0
    · simp [shlWords, h, wfL_nil]
    · simp only [shlWords, if_neg h]
      refine wfL_cons ?_ wfL_nil
      have h1 : (2 : Nat) ^ bs ≤ 2 ^ 31 := Nat.pow_le_pow_right (by norm_num) hbs
      have h2 : (2 : Nat) ^ 31 < B := by norm_num [B]
      omega
  | cons d ds ih =>
    intro bs c hw hbs hc
    obtain ⟨hd, hw'⟩ := wfL_of_cons hw
    simp only [shlWords]
    refine wfL_cons (Nat.mod_lt _ B_pos) (ih bs _ hw' hbs ?_)
    apply Nat.div_lt_of_lt_mul
    calc d * 2 ^ bs + c < d * 2 ^ bs + 2 ^ bs := by omega
      _ = (d + 1) * 2 ^ bs := by ring
      _ ≤ B * 2 ^ bs := Nat.mul_le_mul_right _ hd

lemma pow_div_mod_32 (n : Nat) : B ^ (n / 32) * 2 ^ (n % 32) = 2 ^ n := by
  unfold B
  rw [← pow_mul, ← pow_add]
  congr 1
  omega

lemma shl_spec (x : BigInt) (n : Nat) (hw : Wf x) (ht : TrimmedL x.digits) :
    mag (shl x n).digits = mag x.digits * 2 ^ n ∧ Wf (shl x n) ∧
    TrimmedL (shl x n).digits ∧ (shl x n).negative = x.negative ∧
    (x.digits ≠ [] → (shl x n).digits ≠ []) := by
  unfold shl
  by_cases hz : (isZero x || n == 0) = true
  · rw [if_pos hz]
    have hmagx : mag x.digits * 2 ^ n = mag x.digits := by
      rcases Bool.or_eq_true_iff.mp hz with h | h
      · rw [isZero_true_mag h]
        ring_nf
      · have hn : n = 0 := by simpa using h
        subst hn
        simp
    exact ⟨hmagx.symm, hw, ht, rfl, fun h => h⟩
  · rw [if_neg hz]
    have hzn : isZero x = false ∧ n ≠ 0 := by
      constructor
      · by_contra hc
        have : isZero x = true := by
          cases hx : isZero x with
          | false => exact absurd hx hc
          | true => rfl
        simp [this] at hz
      · intro hn
        subst hn
        simp at hz
    obtain ⟨hxd, _⟩ := (isZero_false_iff x).mp hzn.1
    have hbs31 : n % 32 ≤ 31 := by omega
    have hwres : WfL (List.replicate (n / 32) 0 ++ shlWords x.digits (n % 32) 0) :=
      wfL_append (wfL_replicate_zero _)
        (shlWords_wf _ _ _ hw hbs31 (Nat.pos_pow_of_pos _ (by norm_num)))
    have hmag : mag (trimList (List.replicate (n / 32) 0 ++ shlWords x.digits (n % 32) 0))
        = mag x.digits * 2 ^ n := by
      rw [mag_trimList, mag_append, mag_replicate_zero, shlWords_mag,
        List.length_replicate]
      have : B ^ (n / 32) * (mag x.digits * 2 ^ (n % 32) + 0)
          = mag x.digits * (B ^ (n / 32) * 2 ^ (n % 32)) := by ring
      rw [this, pow_div_mod_32]
      omega
    have hne : shlWords x.digits (n % 32) 0 ≠ [] := by
      cases hx : x.digits with
      | nil => exact absurd hx hxd
      | cons d ds => simp [shlWords]
    have hne2 : List.replicate (n / 32) 0 ++ shlWords x.digits (n % 32) 0 ≠ [] := by
      intro hc
      rcases List.append_eq_nil.mp hc with ⟨_, h2⟩
      exact hne h2
    have hmagpos : 0 < mag x.digits := mag_pos_of_nonzero ht hzn.1
    have hflag : (trim ⟨List.replicate (n / 32) 0 ++ shlWords x.digits (n % 32) 0,
        x.negative⟩).negative = x.negative := by
      unfold trim
      by_cases hd0 : trimList (List.replicate (n / 32) 0 ++ shlWords x.digits (n % 32) 0) = [0]
      · exfalso
        have := hmag
        rw [hd0] at this
        simp only [mag, Nat.mul_zero, Nat.add_zero] at this
        have hp : 0 < (2 : Nat) ^ n := Nat.pos_pow_of_pos _ (by norm_num)
        nlinarith
      · simp [hd0]
    refine ⟨?_, ?_, ?_, hflag, fun _ => ?_⟩
    · rw [trim_digits]
      exact hmag
    · exact wfL_trimList hwres
    · rw [trim_digits]
      exact trimmedL_trimList _
    · rw [trim_digits]
      exact trimList_ne_nil hne2

lemma shrWordsRev_length : ∀ (m : List Nat) (bs c : Nat),
    (shrWordsRev m bs c).length = m.length := by
  intro m
  induction m with
  | nil => intro bs c; rfl
  | cons d ds ih => intro bs c; simp [shrWordsRev, ih]

lemma shrWordsRev_wf : ∀ (m : List Nat) (bs c : Nat), WfL (shrWordsRev m bs c) := by
  intro m
  induction m with
  | nil => intro bs c; exact wfL_nil
  | cons d ds ih =>
    intro bs c
    simp only [shrWordsRev]
    exact wfL_cons (Nat.mod_lt _ B_pos) (ih bs _)

lemma shrWordsRev_mag : ∀ (m : List Nat) (bs c : Nat), WfL m → c < 2 ^ bs →
    magRev (shrWordsRev m bs c) = (c * B ^ m.length + magRev m) / 2 ^ bs := by
  intro m
  induction m with
  | nil =>
    intro bs c _ hc
    simp only [shrWordsRev, magRev, List.length_nil, pow_zero, Nat.mul_one, Nat.add_zero]
    exact (Nat.div_eq_of_lt hc).symm
  | cons d ds ih =>
    intro bs c hw hc
    obtain ⟨hd, hw'⟩ := wfL_of_cons hw
    have hpos : 0 < (2 : Nat) ^ bs := Nat.pos_pow_of_pos _ (by norm_num)
    have hcur : c * B + d < 2 ^ bs * B := by
      calc c * B + d < c * B + B := by omega
        _ = (c + 1) * B := by ring
        _ ≤ 2 ^ bs * B := Nat.mul_le_mul_right _ hc
    have hq : (c * B + d) / 2 ^ bs < B := Nat.div_lt_of_lt_mul hcur
    have hqm : (c * B + d) / 2 ^ bs % B = (c * B + d) / 2 ^ bs := Nat.mod_eq_of_lt hq
    simp only [shrWordsRev, magRev, shrWordsRev_length, hqm,
      ih bs ((c * B + d) % 2 ^ bs) hw' (Nat.mod_lt _ hpos)]
    have hsplit : c * B ^ (d :: ds).length + (d * B ^ ds.length + magRev ds)
        = ((c * B + d) % 2 ^ bs * B ^ ds.length + magRev ds)
          + 2 ^ bs * ((c * B + d) / 2 ^ bs * B ^ ds.length) := by
      have hqr : 2 ^ bs * ((c * B + d) / 2 ^ bs) + (c * B + d) % 2 ^ bs = c * B + d :=
        Nat.div_add_mod _ _
      calc c * B ^ (d :: ds).length + (d * B ^ ds.length + magRev ds)
          = (c * B + d) * B ^ ds.length + magRev ds := by
            simp only [List.length_cons, pow_succ]
            ring
        _ = (2 ^ bs * ((c * B + d) / 2 ^ bs) + (c * B + d) % 2 ^ bs) * B ^ ds.length
              + magRev ds := by rw [hqr]
        _ = ((c * B + d) % 2 ^ bs * B ^ ds.length + magRev ds)
              + 2 ^ bs * ((c * B + d) / 2 ^ bs * B ^ ds.length) := by ring
    rw [hsplit, Nat.add_mul_div_left _ _ hpos]
    omega

lemma wfL_drop {l : List Nat} (k : Nat) (h : WfL l) : WfL (l.drop k) :=
  fun d hd => h d (List.mem_of_mem_drop hd)

lemma mag_drop_div {l : List Nat} (k : Nat) (h : WfL l) :
    mag (l.drop k) = mag l / B ^ k := by
  by_cases hk : l.length ≤ k
  · rw [List.drop_eq_nil_of_le hk]
    have hlt : mag l < B ^ k :=
      lt_of_lt_of_le (mag_lt_pow h) (Nat.pow_le_pow_right (le_of_lt one_lt_B) hk)
    simp [mag, Nat.div_eq_of_lt hlt]
  · push_neg at hk
    have hsplit : mag l = mag (l.take k) + B ^ k * mag (l.drop k) := by
      conv_lhs => rw [← List.take_append_drop k l]
      rw [mag_append, List.length_take, min_eq_left (le_of_lt hk)]
    have htake : mag (l.take k) < B ^ k := by
      have h1 := mag_lt_pow (l := l.take k) (fun d hd => h d (List.mem_of_mem_take hd))
      have h2 : (l.take k).length = k := by rw [List.length_take]; omega
      rw [h2] at h1
      exact h1
    rw [hsplit, Nat.add_mul_div_left _ _ (Nat.pos_pow_of_pos _ B_pos),
      Nat.div_eq_of_lt htake]
    omega

lemma shr_spec (x : BigInt) (n : Nat) (hw : Wf x) (ht : TrimmedL x.digits) :
    mag (shr x n).digits = mag x.digits / 2 ^ n ∧ Wf (shr x n) ∧
    TrimmedL (shr x n).digits := by
  unfold shr
  by_cases hz : (isZero x || n == 0) = true
  · rw [if_pos hz]
    refine ⟨?_, hw, ht⟩
    rcases Bool.or_eq_true_iff.mp hz with h | h
    · rw [isZero_true_mag h]
      simp
    · have hn : n = 0 := by simpa using h
      subst hn
      simp
  · rw [if_neg hz]
    by_cases hdrop : x.digits.length ≤ n / 32
    · rw [if_pos hdrop]
      refine ⟨?_, wfL_nil, Or.inl rfl⟩
      have h1 : mag x.digits < B ^ (n / 32) :=
        lt_of_lt_of_le (mag_lt_pow hw) (Nat.pow_le_pow_right (le_of_lt one_lt_B) hdrop)
      have h2 : B ^ (n / 32) ≤ 2 ^ n := by
        rw [← pow_div_mod_32 n]
        have : 0 < (2 : Nat) ^ (n % 32) := Nat.pos_pow_of_pos _ (by norm_num)
        nlinarith [Nat.pos_pow_of_pos (n / 32) B_pos]
      have : mag x.digits < 2 ^ n := lt_of_lt_of_le h1 h2
      simp [mag, Nat.div_eq_of_lt this]
    · rw [if_neg hdrop]
      refine ⟨?_, wfL_trimList (wfL_reverse (shrWordsRev_wf _ _ _)), ?_⟩
      · rw [trim_digits, mag_trimList, magRev_reverse,
          shrWordsRev_mag _ _ _ (wfL_reverse (wfL_drop _ hw))
            (Nat.pos_pow_of_pos _ (by norm_num)),
          Nat.zero_mul, Nat.zero_add, ← mag_eq_magRev_reverse,
          mag_drop_div _ hw, Nat.div_div_eq_div_mul, pow_div_mod_32]
      · rw [trim_digits]
        exact trimmedL_trimList _

lemma getD_drop' (l : List Nat) (k j : Nat) : (l.drop k).getD j 0 = l.getD (k + j) 0 := by
  simp [List.getD, List.getElem?_drop]

lemma mag_of_length_le_two (l : List Nat) (h : l.length ≤ 2) :
    mag l = l.getD 0 0 + B * l.getD 1 0 := by
  rcases l with _ | ⟨a, _ | ⟨b, _ | ⟨c, t⟩⟩⟩
  · simp [mag]
  · simp [mag, List.getD]
  · simp [mag, List.getD]
  · simp at h

lemma mag_ge_last_mul : ∀ {l : List Nat} {d : Nat},
    l.getLast? = some d → d * B ^ (l.length - 1) ≤ mag l := by
  intro l
  induction l with
  | nil => intro d h; simp at h
  | cons a as ih =>
    intro d h
    cases as with
    | nil =>
      simp only [List.getLast?] at h
      have : a = d := by simpa using h
      subst this
      simp [mag]
    | cons b bs =>
      rw [List.getLast?_cons_cons] at h
      have h1 := ih h
      calc d * B ^ ((a :: b :: bs).length - 1)
          = B * (d * B ^ ((b :: bs).length - 1)) := by
            simp only [List.length_cons, Nat.add_sub_cancel]
            rw [pow_succ]
            ring
        _ ≤ B * mag (b :: bs) := Nat.mul_le_mul_left B h1
        _ ≤ a + B * mag (b :: bs) := Nat.le_add_left _ _
        _ = mag (a :: b :: bs) := rfl

lemma ofU32_mag (w : Nat) : mag (ofU32 w).digits = w := by
  unfold ofU32
  by_cases h : w = 0 <;> simp [h, mag]

lemma ofU32_wf {w : Nat} (h : w < B) : Wf (ofU32 w) := by
  unfold ofU32 Wf
  by_cases h0 : w = 0
  · simp only [h0, if_pos rfl]
    exact wfL_nil
  · simp only [if_neg h0]
    exact wfL_cons h wfL_nil

lemma length_le_of_mag_le {xs ys : List Nat} (htx : TrimmedL xs) (hwy : WfL ys)
    (hny : ys ≠ []) (hle : mag xs ≤ mag ys) : xs.length ≤ ys.length := by
  have hy1 : 1 ≤ ys.length := by
    cases hys : ys with
    | nil => exact absurd hys hny
    | cons u v => simp
  rcases htx with h | h | h
  · subst h; simp
  · subst h; simpa using hy1
  · cases hxs : xs with
    | nil => simp
    | cons u v =>
      have hne : xs ≠ [] := by rw [hxs]; simp
      have hd := List.getLast?_eq_getLast_of_ne_nil hne
      have hd0 : xs.getLast hne ≠ 0 := fun h0 => h (h0 ▸ hd)
      have h1 := mag_ge_of_getLast hd hd0
      have h2 := mag_lt_pow hwy
      rw [← hxs]
      by_contra hc
      push_neg at hc
      have h3 : B ^ ys.length ≤ B ^ (xs.length - 1) :=
        Nat.pow_le_pow_right (le_of_lt one_lt_B) (by omega)
      omega

lemma pow_32_mul (i : Nat) : (2 : Nat) ^ (32 * i) = B ^ i := by
  unfold B
  rw [← pow_mul]

lemma mult_spec (divisor : BigInt) (hwd : Wf divisor) (hnd : divisor.digits ≠ [])
    (hfd : divisor.negative = false) (i qg : Nat) (hqg : qg < B) :
    mag (shl (mulBig divisor (ofU32 qg)) (32 * i)).digits
      = mag divisor.digits * qg * B ^ i ∧
    Wf (shl (mulBig divisor (ofU32 qg)) (32 * i)) ∧
    TrimmedL (shl (mulBig divisor (ofU32 qg)) (32 * i)).digits ∧
    (shl (mulBig divisor (ofU32 qg)) (32 * i)).digits ≠ [] ∧
    (shl (mulBig divisor (ofU32 qg)) (32 * i)).negative = false := by
  obtain ⟨hm1, hm2, hm3⟩ := mulBig_spec divisor (ofU32 qg) hwd (ofU32_wf hqg)
  have hmne : (mulBig divisor (ofU32 qg)).digits ≠ [] := mulBig_ne_nil _ _ hnd
  have hmneg : (mulBig divisor (ofU32 qg)).negative = false :=
    mulBig_negative_false _ _ (by rw [hfd]; rfl)
  obtain ⟨hs1, hs2, hs3, hs4, hs5⟩ := shl_spec (mulBig divisor (ofU32 qg)) (32 * i) hm2 hm3
  refine ⟨?_, hs2, hs3, hs5 hmne, by rw [hs4, hmneg]⟩
  rw [hs1, hm1, ofU32_mag, pow_32_mul]

lemma subF_step {rem mult : BigInt} (hfr : rem.negative = false)
    (hfm : mult.negative = false) (hwr : Wf rem) (hwm : Wf mult)
    (htr : TrimmedL rem.digits) (htm : TrimmedL mult.digits)
    (hnr : rem.digits ≠ []) (hnm : mult.digits ≠ [])
    (hle : mag mult.digits ≤ mag rem.digits) :
    subF 1 rem mult = some (trim ⟨subWords rem.digits mult.digits 0, false⟩) ∧
    mag (trim ⟨subWords rem.digits mult.digits 0, false⟩).digits + mag mult.digits
      = mag rem.digits ∧
    Wf (trim ⟨subWords rem.digits mult.digits 0, false⟩) ∧
    TrimmedL (trim ⟨subWords rem.digits mult.digits 0, false⟩).digits ∧
    (trim ⟨subWords rem.digits mult.digits 0, false⟩).digits ≠ [] ∧
    (trim ⟨subWords rem.digits mult.digits 0, false⟩).negative = false := by
  have hltf : ltB (abs rem) (abs mult) = false := by
    have hiff := ltB_eq_mag (x := abs rem) (y := abs mult) rfl rfl hwr hwm htr htm hnr hnm
    simp only [abs] at hiff
    cases hx : ltB (abs rem) (abs mult) with
    | false => rfl
    | true =>
      have := hiff.mp hx
      omega
  have hstep : subF 1 rem mult = some (trim ⟨subWords rem.digits mult.digits 0, false⟩) := by
    unfold subF addSubF
    rw [hfr, hfm]
    simp only [bne_self_eq_false, Bool.false_eq_true, if_false, geB, hltf,
      Bool.not_false, if_true]
  have hlen : mult.digits.length ≤ rem.digits.length :=
    length_le_of_mag_le htm hwr hnr hle
  obtain ⟨hsub1, hsub2, hsub3⟩ :=
    subWords_spec rem.digits mult.digits 0 hwr hwm (by omega) hlen (by omega)
  have hnsub : subWords rem.digits mult.digits 0 ≠ [] := by
    intro hc
    rw [hc] at hsub3
    simp at hsub3
    cases hx : rem.digits with
    | nil => exact hnr hx
    | cons u v => rw [hx] at hsub3; simp at hsub3
  refine ⟨hstep, ?_, wfL_trimList hsub2, ?_, ?_, ?_⟩
  · rw [trim_digits]
    dsimp only
    rw [mag_trimList]
    omega
  · rw [trim_digits]
    exact trimmedL_trimList _
  · rw [trim_digits]
    exact trimList_ne_nil hnsub
  · exact trim_negative_false rfl

lemma correctLoop_spec (divisor rem : BigInt)
    (hwd : Wf divisor) (htd : TrimmedL divisor.digits) (hnd : divisor.digits ≠ [])
    (hfd : divisor.negative = false)
    (hwr : Wf rem) (htr : TrimmedL rem.digits) (hnr : rem.digits ≠ [])
    (hfr : rem.negative = false) (i : Nat) (hDpos : 0 < mag divisor.digits) :
    ∀ qg : Nat, qg < B →
      mag rem.digits / (mag divisor.digits * B ^ i) ≤ qg →
      correctLoop divisor rem i qg
        = (mag rem.digits / (mag divisor.digits * B ^ i),
           shl (mulBig divisor
             (ofU32 (mag rem.digits / (mag divisor.digits * B ^ i)))) (32 * i)) := by
  intro qg
  induction qg with
  | zero =>
    intro _ hle
    have hq0 : mag rem.digits / (mag divisor.digits * B ^ i) = 0 := Nat.le_zero.mp hle
    rw [hq0]
    rfl
  | succ qg ih =>
    intro hlt hle
    have hMpos : 0 < mag divisor.digits * B ^ i :=
      Nat.mul_pos hDpos (Nat.pos_pow_of_pos _ B_pos)
    obtain ⟨hm1, hm2, hm3, hm4, hm5⟩ := mult_spec divisor hwd hnd hfd i (qg + 1) hlt
    have hiff := ltB_eq_mag (x := rem) (y := shl (mulBig divisor (ofU32 (qg + 1))) (32 * i))
      hfr hm5 hwr hm2 htr hm3 hnr hm4
    by_cases hcase : mag rem.digits / (mag divisor.digits * B ^ i) = qg + 1
    · have hge : ¬ (mag rem.digits
          < mag (shl (mulBig divisor (ofU32 (qg + 1))) (32 * i)).digits) := by
        rw [hm1]
        have h1 : (mag rem.digits / (mag divisor.digits * B ^ i))
            * (mag divisor.digits * B ^ i) ≤ mag rem.digits :=
          Nat.div_mul_le_self _ _
        rw [hcase] at h1
        have he : mag divisor.digits * (qg + 1) * B ^ i
            = (qg + 1) * (mag divisor.digits * B ^ i) := by ring
        omega
      have hltf : ltB rem (shl (mulBig divisor (ofU32 (qg + 1))) (32 * i)) = false := by
        cases hx : ltB rem (shl (mulBig divisor (ofU32 (qg + 1))) (32 * i)) with
        | false => rfl
        | true => exact absurd (hiff.mp hx) hge
      simp only [correctLoop, hltf, Bool.false_eq_true, if_false]
      rw [hcase]
    · have hqle : mag rem.digits / (mag divisor.digits * B ^ i) ≤ qg := by omega
      have hlt2 : mag rem.digits
          < mag (shl (mulBig divisor (ofU32 (qg + 1))) (32 * i)).digits := by
        rw [hm1]
        have hdam := Nat.div_add_mod (mag rem.digits) (mag divisor.digits * B ^ i)
        have hmod := Nat.mod_lt (mag rem.digits) hMpos
        have h3 : (mag divisor.digits * B ^ i)
              * (mag rem.digits / (mag divisor.digits * B ^ i) + 1)
            ≤ (mag divisor.digits * B ^ i) * (qg + 1) :=
          Nat.mul_le_mul_left _ (by omega)
        have he1 : (mag divisor.digits * B ^ i)
              * (mag rem.digits / (mag divisor.digits * B ^ i) + 1)
            = (mag divisor.digits * B ^ i)
                * (mag rem.digits / (mag divisor.digits * B ^ i))
              + mag divisor.digits * B ^ i := by ring
        have he2 : mag divisor.digits * (qg + 1) * B ^ i
            = (mag divisor.digits * B ^ i) * (qg + 1) := by ring
        omega
      have hltt : ltB rem (shl (mulBig divisor (ofU32 (qg + 1))) (32 * i)) = true :=
        hiff.mpr hlt2
      simp only [correctLoop, hltt, if_true]
      exact ih (by omega) hqle

lemma qLoop_succ_eq (divisor rem : BigInt) (i : Nat) :
    qLoop divisor (i + 1) rem =
      match subF 1 rem (correctLoop divisor rem i
          (min ((rem.digits.getD (i + divisor.digits.length) 0 * B
                + rem.digits.getD (i + divisor.digits.length - 1) 0)
              / divisor.digits.getLast?.getD 0) (B - 1))).2 with
      | none => none
      | some rem' =>
        (qLoop divisor i rem').map fun q =>
          ((correctLoop divisor rem i
              (min ((rem.digits.getD (i + divisor.digits.length) 0 * B
                    + rem.digits.getD (i + divisor.digits.length - 1) 0)
                  / divisor.digits.getLast?.getD 0) (B - 1))).1 :: q.1, q.2) := by
  have hrhi : (if i + divisor.digits.length < rem.digits.length
      then rem.digits.getD (i + divisor.digits.length) 0 else 0)
      = rem.digits.getD (i + divisor.digits.length) 0 := by
    by_cases hcond : i + divisor.digits.length < rem.digits.length
    · rw [if_pos hcond]
    · rw [if_neg hcond, List.getD_eq_default _ _ (by omega)]
  simp only [qLoop, hrhi]

lemma qLoop_spec (divisor : BigInt) (hwd : Wf divisor) (htd : TrimmedL divisor.digits)
    (hnd : divisor.digits ≠ []) (hld : divisor.digits.getLast? ≠ some 0)
    (hfd : divisor.negative = false) :
    ∀ (fuel : Nat) (rem : BigInt), Wf rem → TrimmedL rem.digits → rem.digits ≠ [] →
      rem.negative = false →
      mag rem.digits < mag divisor.digits * B ^ fuel →
      ∃ qs rf, qLoop divisor fuel rem = some (qs, rf) ∧
        qs.length = fuel ∧ WfL qs ∧
        mag rem.digits = mag divisor.digits * magRev qs + mag rf.digits ∧
        mag rf.digits < mag divisor.digits ∧
        Wf rf ∧ TrimmedL rf.digits ∧ rf.digits ≠ [] ∧ rf.negative = false := by
  have hdlast := List.getLast?_eq_getLast_of_ne_nil hnd
  have hd0 : divisor.digits.getLast hnd ≠ 0 := fun h0 => hld (h0 ▸ hdlast)
  have hDlow : B ^ (divisor.digits.length - 1) ≤ mag divisor.digits :=
    mag_ge_of_getLast hdlast hd0
  have hDup : mag divisor.digits < B ^ divisor.digits.length := mag_lt_pow hwd
  have hDpos : 0 < mag divisor.digits :=
    lt_of_lt_of_le (Nat.pos_pow_of_pos _ B_pos) hDlow
  have hmlen : 1 ≤ divisor.digits.length := by
    cases hx : divisor.digits with
    | nil => exact absurd hx hnd
    | cons u w => simp
  intro fuel
  induction fuel with
  | zero =>
    intro rem h1 h2 h3 h4 h5
    refine ⟨[], rem, rfl, rfl, wfL_nil, ?_, ?_, h1, h2, h3, h4⟩
    · simp [magRev]
    · simpa using h5
  | succ i ih =>
    intro rem hwr htr hnr hfr hbound
    have hMpos : 0 < mag divisor.digits * B ^ i :=
      Nat.mul_pos hDpos (Nat.pos_pow_of_pos _ B_pos)
    have hqB : mag rem.digits / (mag divisor.digits * B ^ i) < B := by
      apply Nat.div_lt_of_lt_mul
      have he : (mag divisor.digits * B ^ i) * B = mag divisor.digits * B ^ (i + 1) := by
        rw [pow_succ]; ring
      omega
    have hlenrem : rem.digits.length ≤ i + divisor.digits.length + 1 := by
      by_cases hl2 : rem.digits.length ≤ 1
      · omega
      · have hnz : rem.digits ≠ [0] := by
          intro hc; rw [hc] at hl2; simp at hl2
        have hlast : rem.digits.getLast? ≠ some 0 := by
          rcases htr with h | h | h
          · exact absurd h hnr
          · exact absurd h hnz
          · exact h
        have hd2 := List.getLast?_eq_getLast_of_ne_nil hnr
        have hd20 : rem.digits.getLast hnr ≠ 0 := fun h0 => hlast (h0 ▸ hd2)
        have hlow := mag_ge_of_getLast hd2 hd20
        have hup : mag divisor.digits * B ^ (i + 1)
            ≤ B ^ (divisor.digits.length + i + 1) := by
          have h6 : mag divisor.digits * B ^ (i + 1)
              ≤ B ^ divisor.digits.length * B ^ (i + 1) :=
            Nat.mul_le_mul_right _ (le_of_lt hDup)
          have h7 : B ^ divisor.digits.length * B ^ (i + 1)
              = B ^ (divisor.digits.length + i + 1) := by
            rw [← pow_add]; congr 1
          omega
        have hcomb : B ^ (rem.digits.length - 1)
            < B ^ (divisor.digits.length + i + 1) := by omega
        have := (Nat.pow_lt_pow_iff_right one_lt_B).mp hcomb
        omega
    have hdecomp : mag rem.digits
        = mag (rem.digits.take (i + divisor.digits.length - 1))
          + B ^ (i + divisor.digits.length - 1)
            * (rem.digits.getD (i + divisor.digits.length - 1) 0
               + B * rem.digits.getD (i + divisor.digits.length) 0) := by
      have hsplit : mag rem.digits
          = mag (rem.digits.take (i + divisor.digits.length - 1))
            + B ^ (rem.digits.take (i + divisor.digits.length - 1)).length
              * mag (rem.digits.drop (i + divisor.digits.length - 1)) := by
        conv_lhs => rw [← List.take_append_drop (i + divisor.digits.length - 1) rem.digits]
        rw [mag_append]
      by_cases hklen : rem.digits.length ≤ i + divisor.digits.length - 1
      · rw [List.drop_eq_nil_of_le hklen] at hsplit
        rw [List.getD_eq_default _ _
            (show rem.digits.length ≤ i + divisor.digits.length - 1 by omega),
          List.getD_eq_default _ _
            (show rem.digits.length ≤ i + divisor.digits.length by omega)]
        simp only [mag_nil, Nat.mul_zero, Nat.add_zero] at hsplit
        simp only [Nat.mul_zero, Nat.add_zero]
        omega
      · push_neg at hklen
        have hlen_take : (rem.digits.take (i + divisor.digits.length - 1)).length
            = i + divisor.digits.length - 1 := by
          rw [List.length_take]; omega
        have hdrop2 : (rem.digits.drop (i + divisor.digits.length - 1)).length ≤ 2 := by
          rw [List.length_drop]; omega
        have hmd := mag_of_length_le_two _ hdrop2
        rw [getD_drop', getD_drop'] at hmd
        rw [hlen_take, hmd] at hsplit
        rw [hsplit]
        simp only [Nat.add_zero]
        have hidx : i + divisor.digits.length - 1 + 1 = i + divisor.digits.length := by
          omega
        rw [hidx]
    have htakelt : mag (rem.digits.take (i + divisor.digits.length - 1))
        < B ^ (i + divisor.digits.length - 1) := by
      have h8 := mag_lt_pow (l := rem.digits.take (i + divisor.digits.length - 1))
        (fun d hd => hwr d (List.mem_of_mem_take hd))
      have h9 : (rem.digits.take (i + divisor.digits.length - 1)).length
          ≤ i + divisor.digits.length - 1 := by
        rw [List.length_take]; omega
      have h10 : B ^ (rem.digits.take (i + divisor.digits.length - 1)).length
          ≤ B ^ (i + divisor.digits.length - 1) :=
        Nat.pow_le_pow_right (le_of_lt one_lt_B) h9
      omega
    have hveq : divisor.digits.getLast?.getD 0 = divisor.digits.getLast hnd := by
      rw [hdlast]; rfl
    have hvpos : 0 < divisor.digits.getLast?.getD 0 := by
      rw [hveq]; exact Nat.pos_iff_ne_zero.mpr hd0
    have hvD : divisor.digits.getLast?.getD 0 * B ^ (divisor.digits.length - 1)
        ≤ mag divisor.digits := by
      rw [hveq]; exact mag_ge_last_mul hdlast
    have hqest : mag rem.digits / (mag divisor.digits * B ^ i)
        ≤ (rem.digits.getD (i + divisor.digits.length) 0 * B
           + rem.digits.getD (i + divisor.digits.length - 1) 0)
          / divisor.digits.getLast?.getD 0 := by
      have hWv := Nat.div_add_mod (rem.digits.getD (i + divisor.digits.length) 0 * B
           + rem.digits.getD (i + divisor.digits.length - 1) 0)
        (divisor.digits.getLast?.getD 0)
      have hWm := Nat.mod_lt (rem.digits.getD (i + divisor.digits.length) 0 * B
           + rem.digits.getD (i + divisor.digits.length - 1) 0) hvpos
      have hBk : B ^ (i + divisor.digits.length - 1)
          = B ^ (divisor.digits.length - 1) * B ^ i := by
        rw [← pow_add]; congr 1; omega
      apply Nat.lt_succ_iff.mp
      apply (Nat.div_lt_iff_lt_mul hMpos).mpr
      calc mag rem.digits
          < (rem.digits.getD (i + divisor.digits.length) 0 * B
             + rem.digits.getD (i + divisor.digits.length - 1) 0 + 1)
            * B ^ (i + divisor.digits.length - 1) := by
            have hexp : (rem.digits.getD (i + divisor.digits.length) 0 * B
                + rem.digits.getD (i + divisor.digits.length - 1) 0 + 1)
                * B ^ (i + divisor.digits.length - 1)
                = B ^ (i + divisor.digits.length - 1)
                  * (rem.digits.getD (i + divisor.digits.length - 1) 0
                     + B * rem.digits.getD (i + divisor.digits.length) 0)
                  + B ^ (i + divisor.digits.length - 1) := by ring
            omega
        _ ≤ (((rem.digits.getD (i + divisor.digits.length) 0 * B
              + rem.digits.getD (i + divisor.digits.length - 1) 0)
              / divisor.digits.getLast?.getD 0 + 1) * divisor.digits.getLast?.getD 0)
            * B ^ (i + divisor.digits.length - 1) := by
            apply Nat.mul_le_mul_right
            have hexp2 : ((rem.digits.getD (i + divisor.digits.length) 0 * B
                + rem.digits.getD (i + divisor.digits.length - 1) 0)
                / divisor.digits.getLast?.getD 0 + 1) * divisor.digits.getLast?.getD 0
                = divisor.digits.getLast?.getD 0
                    * ((rem.digits.getD (i + divisor.digits.length) 0 * B
                        + rem.digits.getD (i + divisor.digits.length - 1) 0)
                       / divisor.digits.getLast?.getD 0)
                  + divisor.digits.getLast?.getD 0 := by ring
            omega
        _ = ((rem.digits.getD (i + divisor.digits.length) 0 * B
              + rem.digits.getD (i + divisor.digits.length - 1) 0)
             / divisor.digits.getLast?.getD 0 + 1)
            * (divisor.digits.getLast?.getD 0 * B ^ (i + divisor.digits.length - 1)) := by
            ring
        _ ≤ ((rem.digits.getD (i + divisor.digits.length) 0 * B
              + rem.digits.getD (i + divisor.digits.length - 1) 0)
             / divisor.digits.getLast?.getD 0 + 1)
            * (mag divisor.digits * B ^ i) := by
            apply Nat.mul_le_mul_left
            rw [hBk]
            calc divisor.digits.getLast?.getD 0
                  * (B ^ (divisor.digits.length - 1) * B ^ i)
                = (divisor.digits.getLast?.getD 0 * B ^ (divisor.digits.length - 1))
                  * B ^ i := by ring
              _ ≤ mag divisor.digits * B ^ i := Nat.mul_le_mul_right _ hvD
    have hqmin : mag rem.digits / (mag divisor.digits * B ^ i)
        ≤ min ((rem.digits.getD (i + divisor.digits.length) 0 * B
               + rem.digits.getD (i + divisor.digits.length - 1) 0)
              / divisor.digits.getLast?.getD 0) (B - 1) :=
      le_min hqest (by omega)
    have hminB : min ((rem.digits.getD (i + divisor.digits.length) 0 * B
               + rem.digits.getD (i + divisor.digits.length - 1) 0)
              / divisor.digits.getLast?.getD 0) (B - 1) < B := by
      have h11 := min_le_right ((rem.digits.getD (i + divisor.digits.length) 0 * B
               + rem.digits.getD (i + divisor.digits.length - 1) 0)
              / divisor.digits.getLast?.getD 0) (B - 1)
      have hB1 := B_pos
      omega
    have hcorrect := correctLoop_spec divisor rem hwd htd hnd hfd hwr htr hnr hfr i hDpos
      (min ((rem.digits.getD (i + divisor.digits.length) 0 * B
            + rem.digits.getD (i + divisor.digits.length - 1) 0)
           / divisor.digits.getLast?.getD 0) (B - 1)) hminB hqmin
    obtain ⟨hm1, hm2, hm3, hm4, hm5⟩ := mult_spec divisor hwd hnd hfd i
      (mag rem.digits / (mag divisor.digits * B ^ i)) hqB
    have hmle : mag (shl (mulBig divisor
        (ofU32 (mag rem.digits / (mag divisor.digits * B ^ i)))) (32 * i)).digits
        ≤ mag rem.digits := by
      rw [hm1]
      have h1 : mag rem.digits / (mag divisor.digits * B ^ i)
          * (mag divisor.digits * B ^ i) ≤ mag rem.digits := Nat.div_mul_le_self _ _
      have he : mag divisor.digits * (mag rem.digits / (mag divisor.digits * B ^ i))
          * B ^ i
          = mag rem.digits / (mag divisor.digits * B ^ i)
            * (mag divisor.digits * B ^ i) := by ring
      omega
    obtain ⟨hs1, hs2, hs3, hs4, hs5, hs6⟩ :=
      subF_step hfr hm5 hwr hm2 htr hm3 hnr hm4 hmle
    have hrem'lt : mag (trim ⟨subWords rem.digits
        (shl (mulBig divisor
          (ofU32 (mag rem.digits / (mag divisor.digits * B ^ i)))) (32 * i)).digits 0,
        false⟩).digits < mag divisor.digits * B ^ i := by
      have hdam := Nat.div_add_mod (mag rem.digits) (mag divisor.digits * B ^ i)
      have hmod := Nat.mod_lt (mag rem.digits) hMpos
      have he : mag divisor.digits * (mag rem.digits / (mag divisor.digits * B ^ i))
          * B ^ i
          = (mag divisor.digits * B ^ i)
            * (mag rem.digits / (mag divisor.digits * B ^ i)) := by ring
      omega
    obtain ⟨qs', rf, hihEq, hlen', hwfqs', heq', hlt', hw', ht', hn', hf'⟩ :=
      ih (trim ⟨subWords rem.digits
        (shl (mulBig divisor
          (ofU32 (mag rem.digits / (mag divisor.digits * B ^ i)))) (32 * i)).digits 0,
        false⟩) hs3 hs4 hs5 hs6 hrem'lt
    refine ⟨mag rem.digits / (mag divisor.digits * B ^ i) :: qs', rf, ?_,
      by simp [hlen'], wfL_cons hqB hwfqs', ?_, hlt', hw', ht', hn', hf'⟩
    · rw [qLoop_succ_eq, hcorrect]
      dsimp only
      rw [hs1]
      dsimp only
      rw [hihEq]
      rfl
    · simp only [magRev]
      rw [hlen']
      have hdam := Nat.div_add_mod (mag rem.digits) (mag divisor.digits * B ^ i)
      have he1 : mag divisor.digits
            * (mag rem.digits / (mag divisor.digits * B ^ i) * B ^ i + magRev qs')
          = (mag divisor.digits * B ^ i)
              * (mag rem.digits / (mag divisor.digits * B ^ i))
            + mag divisor.digits * magRev qs' := by ring
      have he2 : mag divisor.digits * (mag rem.digits / (mag divisor.digits * B ^ i))
            * B ^ i
          = (mag divisor.digits * B ^ i)
            * (mag rem.digits / (mag divisor.digits * B ^ i)) := by ring
      omega

lemma getLast_ne_zero_of_mag_pos {l : List Nat} (ht : TrimmedL l) (hp : 0 < mag l) :
    l.getLast? ≠ some 0 := by
  rcases ht with h | h | h
  · subst h; simp [mag] at hp
  · subst h; simp [mag] at hp
  · exact h

lemma val_mk (l : List Nat) (s : Bool) :
    val ⟨l, s⟩ = if s then -(mag l : Int) else (mag l : Int) := rfl

lemma trim_negative_of_not_zero {x : BigInt} (h : isZero (trim x) = false) :
    (trim x).negative = x.negative := by
  obtain ⟨h1, h2⟩ := (isZero_false_iff _).mp h
  rw [trim_digits] at h2
  unfold trim
  simp only [if_neg h2]

lemma isZero_ofInt_zero : isZero (ofInt 0) = true := rfl

lemma divmod_main_eq (a b : BigInt) (hbz : isZero b = false) (haz : isZero a = false)
    (hcmp : ltB (abs a) (abs b) = false) (hnz : normOf (abs b) ≠ 0) :
    divmod a b =
      match qLoop (shl (abs b) (normOf (abs b)))
          ((shl (abs a) (normOf (abs b))).digits.length
            - (shl (abs b) (normOf (abs b))).digits.length + 1)
          (shl (abs a) (normOf (abs b))) with
      | none => .error .stuck
      | some (qs, rem1) =>
        .ok (trim ⟨(trim ⟨qs.reverse, false⟩).digits, a.negative != b.negative⟩,
             trim ⟨(shr rem1 (normOf (abs b))).digits, a.negative⟩) := by
  have hnzb : (normOf (abs b) != 0) = true := by simpa using hnz
  unfold divmod
  simp only [hbz, haz, hcmp, hnzb, Bool.false_eq_true, if_false, if_true]

lemma divmod_full (a b : BigInt) (hwa : Wf a) (hta : TrimmedL a.digits)
    (hwb : Wf b) (htb : TrimmedL b.digits) (hbz : isZero b = false) :
    ∃ q r, divmod a b = .ok (q, r) ∧
      val b * val q + val r = val a ∧
      (val r).natAbs < (val b).natAbs ∧
      (isZero q = false → q.negative = (a.negative != b.negative)) ∧
      (isZero r = false → r.negative = a.negative) := by
  have hbpos : 0 < mag b.digits := mag_pos_of_nonzero htb hbz
  obtain ⟨hbne, hbn0⟩ := (isZero_false_iff b).mp hbz
  have hvb : (val b).natAbs = mag b.digits := by
    unfold val
    cases hbneg : b.negative <;> simp
  by_cases haz : isZero a = true
  · have hmaga : mag a.digits = 0 := isZero_true_mag haz
    have hvala : val a = 0 := by
      unfold val
      rw [hmaga]
      cases a.negative <;> simp
    refine ⟨ofInt 0, ofInt 0, ?_, ?_, ?_, ?_, ?_⟩
    · unfold divmod
      simp only [hbz, haz, Bool.false_eq_true, if_false, if_true]
    · rw [hvala]
      unfold ofInt val
      simp [mag]
    · rw [hvb]
      unfold ofInt val
      simpa [mag] using hbpos
    · intro h; simp [ofInt, isZero] at h
    · intro h; simp [ofInt, isZero] at h
  · have haz' : isZero a = false := by
      cases hx : isZero a with
      | false => rfl
      | true => exact absurd hx haz
    obtain ⟨hane, han0⟩ := (isZero_false_iff a).mp haz'
    have hapos : 0 < mag a.digits := mag_pos_of_nonzero hta haz'
    have hva : (val a).natAbs = mag a.digits := by
      unfold val
      cases a.negative <;> simp
    have hiff0 := ltB_eq_mag (x := abs a) (y := abs b) rfl rfl hwa hwb hta htb hane hbne
    simp only [abs] at hiff0
    by_cases hcmp : ltB (abs a) (abs b) = true
    · have hmlt : mag a.digits < mag b.digits := hiff0.mp hcmp
      refine ⟨ofInt 0, a, ?_, ?_, ?_, ?_, fun _ => rfl⟩
      · unfold divmod
        simp only [hbz, haz', hcmp, Bool.false_eq_true, if_false, if_true]
      · unfold ofInt val
        simp [mag]
      · rw [hvb, hva]
        exact hmlt
      · intro h; simp [ofInt, isZero] at h
    · have hltf : ltB (abs a) (abs b) = false := by
        cases hx : ltB (abs a) (abs b) with
        | false => rfl
        | true => exact absurd hx hcmp
      have hge : mag b.digits ≤ mag a.digits := by
        by_contra hc
        push_neg at hc
        exact hcmp (hiff0.mpr hc)
      obtain ⟨dtop, hdtop, hdtop0⟩ := getLast_ne_zero htb hbz
      have hdtopB : dtop < B := hwb dtop (mem_of_getLast?_eq hdtop)
      obtain ⟨hb1, hb2, hb3, hb4⟩ := bitLenAux_spec 32 dtop (by simpa [B] using hdtopB)
        (Nat.pos_iff_ne_zero.mpr hdtop0)
      have hnorm_eq : normOf (abs b) = bitLenAux 32 dtop := by
        unfold normOf clz32 bitLen32 abs
        dsimp only
        rw [hdtop]
        simp only [Option.getD_some]
        omega
      have hnz : normOf (abs b) ≠ 0 := by omega
      have hpowpos : 0 < (2 : Nat) ^ normOf (abs b) := Nat.pos_pow_of_pos _ (by norm_num)
      obtain ⟨hd1, hd2, hd3, hd4, hd5⟩ := shl_spec (abs b) (normOf (abs b)) hwb htb
      obtain ⟨hr1, hr2, hr3, hr4, hr5⟩ := shl_spec (abs a) (normOf (abs b)) hwa hta
      have hd4' : (shl (abs b) (normOf (abs b))).negative = false := hd4.trans rfl
      have hr4' : (shl (abs a) (normOf (abs b))).negative = false := hr4.trans rfl
      have hd5' : (shl (abs b) (normOf (abs b))).digits ≠ [] := hd5 hbne
      have hr5' : (shl (abs a) (normOf (abs b))).digits ≠ [] := hr5 hane
      have hDmag : mag (shl (abs b) (normOf (abs b))).digits
          = mag b.digits * 2 ^ normOf (abs b) := hd1
      have hRmag : mag (shl (abs a) (normOf (abs b))).digits
          = mag a.digits * 2 ^ normOf (abs b) := hr1
      have hDpos' : 0 < mag (shl (abs b) (normOf (abs b))).digits := by
        rw [hDmag]
        exact Nat.mul_pos hbpos hpowpos
      have hDlast : (shl (abs b) (normOf (abs b))).digits.getLast? ≠ some 0 :=
        getLast_ne_zero_of_mag_pos hd3 hDpos'
      have hDleR : mag (shl (abs b) (normOf (abs b))).digits
          ≤ mag (shl (abs a) (normOf (abs b))).digits := by
        rw [hDmag, hRmag]
        exact Nat.mul_le_mul_right _ hge
      have hnm : (shl (abs b) (normOf (abs b))).digits.length
          ≤ (shl (abs a) (normOf (abs b))).digits.length :=
        length_le_of_mag_le hd3 hr2 hr5' hDleR
      have hmlen1 : 1 ≤ (shl (abs b) (normOf (abs b))).digits.length := by
        cases hx : (shl (abs b) (normOf (abs b))).digits with
        | nil => exact absurd hx hd5'
        | cons u w => simp
      have hbound : mag (shl (abs a) (normOf (abs b))).digits
          < mag (shl (abs b) (normOf (abs b))).digits
            * B ^ ((shl (abs a) (normOf (abs b))).digits.length
                   - (shl (abs b) (normOf (abs b))).digits.length + 1) := by
        have h1 : mag (shl (abs a) (normOf (abs b))).digits
            < B ^ (shl (abs a) (normOf (abs b))).digits.length := mag_lt_pow hr2
        have hdl := List.getLast?_eq_getLast_of_ne_nil hd5'
        have hdl0 : (shl (abs b) (normOf (abs b))).digits.getLast hd5' ≠ 0 :=
          fun h0 => hDlast (h0 ▸ hdl)
        have h2 : B ^ ((shl (abs b) (normOf (abs b))).digits.length - 1)
            ≤ mag (shl (abs b) (normOf (abs b))).digits := mag_ge_of_getLast hdl hdl0
        have h3 : B ^ (shl (abs a) (normOf (abs b))).digits.length
            = B ^ ((shl (abs b) (normOf (abs b))).digits.length - 1)
              * B ^ ((shl (abs a) (normOf (abs b))).digits.length
                     - (shl (abs b) (normOf (abs b))).digits.length + 1) := by
          rw [← pow_add]
          congr 1
          omega
        calc mag (shl (abs a) (normOf (abs b))).digits
            < B ^ (shl (abs a) (normOf (abs b))).digits.length := h1
          _ = B ^ ((shl (abs b) (normOf (abs b))).digits.length - 1)
              * B ^ ((shl (abs a) (normOf (abs b))).digits.length
                     - (shl (abs b) (normOf (abs b))).digits.length + 1) := h3
          _ ≤ mag (shl (abs b) (normOf (abs b))).digits
              * B ^ ((shl (abs a) (normOf (abs b))).digits.length
                     - (shl (abs b) (normOf (abs b))).digits.length + 1) :=
            Nat.mul_le_mul_right _ h2
      obtain ⟨qs, rf, hQeq, hQlen, hQwf, hQmag, hQlt, hQw, hQt, hQn, hQf⟩ :=
        qLoop_spec (shl (abs b) (normOf (abs b))) hd2 hd3 hd5' hDlast hd4'
          ((shl (abs a) (normOf (abs b))).digits.length
            - (shl (abs b) (normOf (abs b))).digits.length + 1)
          (shl (abs a) (normOf (abs b))) hr2 hr3 hr5' hr4' hbound
      have hkey : mag a.digits * 2 ^ normOf (abs b)
          = mag b.digits * 2 ^ normOf (abs b) * magRev qs + mag rf.digits := by
        rw [hRmag, hDmag] at hQmag
        exact hQmag
      have hQle : mag b.digits * magRev qs ≤ mag a.digits := by
        have h4 : mag b.digits * 2 ^ normOf (abs b) * magRev qs
            = (mag b.digits * magRev qs) * 2 ^ normOf (abs b) := by ring
        have h5 : (mag b.digits * magRev qs) * 2 ^ normOf (abs b)
            ≤ mag a.digits * 2 ^ normOf (abs b) := by omega
        exact Nat.le_of_mul_le_mul_right h5 hpowpos
      have hrf_eq : mag rf.digits
          = (mag a.digits - mag b.digits * magRev qs) * 2 ^ normOf (abs b) := by
        have h6 : (mag a.digits - mag b.digits * magRev qs) * 2 ^ normOf (abs b)
            = mag a.digits * 2 ^ normOf (abs b)
              - (mag b.digits * magRev qs) * 2 ^ normOf (abs b) := tsub_mul _ _ _
        have h4 : mag b.digits * 2 ^ normOf (abs b) * magRev qs
            = (mag b.digits * magRev qs) * 2 ^ normOf (abs b) := by ring
        omega
      obtain ⟨hsr1, hsr2, hsr3⟩ := shr_spec rf (normOf (abs b)) hQw hQt
      have hrem2mag : mag (shr rf (normOf (abs b))).digits
          = mag a.digits - mag b.digits * magRev qs := by
        rw [hsr1, hrf_eq]
        exact Nat.mul_div_cancel _ hpowpos
      have hrt_lt : mag a.digits - mag b.digits * magRev qs < mag b.digits := by
        rw [hDmag] at hQlt
        rw [hrf_eq] at hQlt
        exact lt_of_mul_lt_mul_right hQlt (Nat.zero_le _)
      have hvq : val (trim ⟨(trim ⟨qs.reverse, false⟩).digits, a.negative != b.negative⟩)
          = if (a.negative != b.negative) then -(magRev qs : Int) else (magRev qs : Int) := by
        rw [val_trim, val_mk]
        have hq2 : mag (trim ⟨qs.reverse, false⟩).digits = magRev qs := by
          rw [mag_trim]
          exact magRev_reverse qs
        rw [hq2]
      have hvr : val (trim ⟨(shr rf (normOf (abs b))).digits, a.negative⟩)
          = if a.negative
            then -((mag a.digits - mag b.digits * magRev qs : Nat) : Int)
            else ((mag a.digits - mag b.digits * magRev qs : Nat) : Int) := by
        rw [val_trim, val_mk, hrem2mag]
      have hInt : (mag a.digits : Int)
          = (mag b.digits : Int) * (magRev qs : Int)
            + ((mag a.digits - mag b.digits * magRev qs : Nat) : Int) := by
        rw [Nat.cast_sub hQle]
        push_cast
        ring
      rw [divmod_main_eq a b hbz haz' hltf hnz, hQeq]
      dsimp only
      refine ⟨_, _, rfl, ?_, ?_, ?_, ?_⟩
      · rw [hvq, hvr]
        unfold val
        cases haneg : a.negative <;> cases hbneg : b.negative <;>
          simp [haneg, hbneg] <;> linarith [hInt]
      · rw [hvr, hvb]
        cases haneg : a.negative <;> simp [haneg] <;> exact hrt_lt
      · intro h
        exact trim_negative_of_not_zero h
      · intro h
        exact trim_negative_of_not_zero h

/-- C1 (amended): for every well-formed, normalized dividend `a` and non-zero
divisor `b`, `divmod` returns quotient `q` and remainder `r` with
`b * q + r == a` and `|r| < |b|` at the value level; the quotient's sign flag
equals the XOR of the operands' signs whenever the quotient is non-zero, and
the remainder's sign flag equals the dividend's sign whenever the remainder is
non-zero (a zero quotient or remainder is canonicalized to the non-negative
zero, which is what refutes the unamended claim). -/
theorem c1_division_contract (a b : BigInt) (hwa : Wf a) (hta : TrimmedL a.digits)
    (hwb : Wf b) (htb : TrimmedL b.digits) (hbz : isZero b = false) :
    ∃ q r, divmod a b = .ok (q, r) ∧
      val b * val q + val r = val a ∧
      (val r).natAbs < (val b).natAbs ∧
      (isZero q = false → q.negative = (a.negative != b.negative)) ∧
      (isZero r = false → r.negative = a.negative) :=
  divmod_full a b hwa hta hwb htb hbz

/-- C1 witness: the amended contract at the spec's concrete scenario
`a = -5`, `b = 3` (quotient `-1`, remainder `-2`). -/
theorem c1_division_contract_witness :
    Wf ⟨[5], true⟩ ∧ TrimmedL [5] ∧ Wf ⟨[3], false⟩ ∧ TrimmedL [3] ∧
    isZero ⟨[3], false⟩ = false ∧
    (∃ q r, divmod ⟨[5], true⟩ ⟨[3], false⟩ = .ok (q, r) ∧
      val ⟨[3], false⟩ * val q + val r = val ⟨[5], true⟩ ∧
      (val r).natAbs < (val ⟨[3], false⟩).natAbs ∧
      (isZero q = false →
        q.negative = ((⟨[5], true⟩ : BigInt).negative != (⟨[3], false⟩ : BigInt).negative)) ∧
      (isZero r = false → r.negative = (⟨[5], true⟩ : BigInt).negative)) :=
  ⟨by decide, by decide, by decide, by decide, rfl,
   c1_division_contract ⟨[5], true⟩ ⟨[3], false⟩ (by decide) (by decide)
     (by decide) (by decide) rfl⟩

/-- C5: `divmod` terminates and returns a result for every well-formed,
normalized dividend and non-zero divisor: the model's fuel for the inner
`operator-` call never runs out and the correction loop (structural recursion
on the decreasing `qguess`) always exits, because the windowed trial digit
starts at or above the true quotient digit and the loop stops exactly there
(established by the `correctLoop_spec`/`qLoop_spec` development behind
`divmod_full`); in particular the `.error .stuck` outcome is impossible. -/
theorem c5_divmod_terminates (a b : BigInt) (hwa : Wf a) (hta : TrimmedL a.digits)
    (hwb : Wf b) (htb : TrimmedL b.digits) (hbz : isZero b = false) :
    ∃ q r, divmod a b = .ok (q, r) := by
  obtain ⟨q, r, h, _⟩ := divmod_full a b hwa hta hwb htb hbz
  exact ⟨q, r, h⟩

/-- C5 witness: termination at the concrete division `100 / 3`. -/
theorem c5_divmod_terminates_witness :
    Wf ⟨[100], false⟩ ∧ TrimmedL [100] ∧ Wf ⟨[3], false⟩ ∧ TrimmedL [3] ∧
    isZero ⟨[3], false⟩ = false ∧
    ∃ q r, divmod ⟨[100], false⟩ ⟨[3], false⟩ = .ok (q, r) :=
  ⟨by decide, by decide, by decide, by decide, rfl,
   c5_divmod_terminates ⟨[100], false⟩ ⟨[3], false⟩ (by decide) (by decide)
     (by decide) (by decide) rfl⟩

/-- C9: division and remainder fail with the division-by-zero error exactly
when the divisor is zero, and no other error is possible; and for the concrete
operands a = "100", b = "0", addition, subtraction, multiplication and the
bitwise operations all produce values while `/` and `%` fail with
`DivisionByZero`. -/
theorem c9_division_by_zero :
    (∀ a b : BigInt, Wf a → TrimmedL a.digits → Wf b → TrimmedL b.digits →
      ((divmod a b = .error .divisionByZero ↔ isZero b = true) ∧
       (∀ e, divmod a b = .error e → e = .divisionByZero))) ∧
    (parseB "100" = some ⟨[100], false⟩ ∧ parseB "0" = some ⟨[0], false⟩ ∧
     divB ⟨[100], false⟩ ⟨[0], false⟩ = .error .divisionByZero ∧
     modB ⟨[100], false⟩ ⟨[0], false⟩ = .error .divisionByZero ∧
     addF 4 ⟨[100], false⟩ ⟨[0], false⟩ = some ⟨[100], false⟩ ∧
     subF 4 ⟨[100], false⟩ ⟨[0], false⟩ = some ⟨[100], false⟩ ∧
     mulBig ⟨[100], false⟩ ⟨[0], false⟩ = ⟨[0], false⟩ ∧
     andB ⟨[100], false⟩ ⟨[0], false⟩ = ⟨[0], false⟩ ∧
     orB ⟨[100], false⟩ ⟨[0], false⟩ = ⟨[100], false⟩) := by
  constructor
  · intro a b hwa hta hwb htb
    constructor
    · constructor
      · intro h
        by_contra hc
        have hbz : isZero b = false := by
          cases hx : isZero b with
          | false => rfl
          | true => exact absurd hx hc
        obtain ⟨q, r, hok, _⟩ := divmod_full a b hwa hta hwb htb hbz
        rw [hok] at h
        cases h
      · intro h
        unfold divmod
        simp only [h, if_true]
    · intro e he
      by_cases hbz : isZero b = true
      · have h2 : (Except.error DivErr.divisionByZero
            : Except DivErr (BigInt × BigInt)) = .error e := by
          rw [← he]
          unfold divmod
          simp only [hbz, if_true]
        cases h2
        rfl
      · have hbz' : isZero b = false := by
          cases hx : isZero b with
          | false => rfl
          | true => exact absurd hx hbz
        obtain ⟨q, r, hok, _⟩ := divmod_full a b hwa hta hwb htb hbz'
        rw [hok] at he
        cases he
  · exact ⟨rfl, rfl, rfl, rfl, rfl, rfl, by decide, by decide, by decide⟩

/-- C9 witness: the error characterization applied at the concrete operands
a = 100 and b = 0. -/
theorem c9_division_by_zero_witness :
    Wf ⟨[100], false⟩ ∧ TrimmedL [100] ∧ Wf ⟨[0], false⟩ ∧ TrimmedL [0] ∧
    (divmod ⟨[100], false⟩ ⟨[0], false⟩ = .error .divisionByZero
      ↔ isZero ⟨[0], false⟩ = true) :=
  ⟨by decide, by decide, by decide, by decide,
   (c9_division_by_zero.1 ⟨[100], false⟩ ⟨[0], false⟩ (by decide) (by decide)
     (by decide) (by decide)).1⟩

end CppBigInt
